import Mathlib

/-!
Verification development for the Google Foods front-end.

The core under study is the response-orchestration layer in
`src/services/gemini.ts` (source extraction, mode resolution, the
recommendation / recipe parsers, video polling) together with the
search handler in `src/App.tsx` and the source-list deduplication in
the `SourceList` component.

Strings of the TypeScript source are embedded as `List Char`; every
string-manipulating primitive the source uses (`String.prototype.split`,
`trim`, `match` with the concrete regular expressions appearing in the
source, `replace` of the concrete anchored patterns) is translated into
an executable Lean function with JavaScript semantics.
-/

namespace GoogleFoods

set_option maxRecDepth 100000

/-- Embedded string type: JavaScript strings as lists of characters. -/
abbrev Str := List Char

/-- Coerce a Lean string literal to the embedded string type. -/
def str (s : String) : Str := s.data

/-- Whitespace as matched by JavaScript `\s` / `trim` (the characters
actually occurring in the texts under study). -/
def isWs (c : Char) : Bool :=
  c = ' ' || c = '\n' || c = '\t' || c = '\r' || c = '\x0b' || c = '\x0c'

/-- Left trim: drop leading whitespace. -/
def ltrim (s : Str) : Str := s.dropWhile isWs

/-- Right trim: drop trailing whitespace. -/
def rtrim (s : Str) : Str := (s.reverse.dropWhile isWs).reverse

/-- JavaScript `String.prototype.trim`. -/
def trimStr (s : Str) : Str := ltrim (rtrim s)

/-- Index of the leftmost occurrence of `p` in `s`, if any
(JavaScript `String.prototype.indexOf`). -/
def findSub (p : Str) : Str → Option Nat
  | [] => if p.isPrefixOf ([] : Str) then some 0 else none
  | c :: rest =>
    if p.isPrefixOf (c :: rest) then some 0
    else (findSub p rest).map (· + 1)

/-- Whether `p` occurs as a contiguous substring of `s`
(JavaScript `String.prototype.includes`). -/
def containsSub (p s : Str) : Bool := (findSub p s).isSome

/-- Fueled worker for `splitOnStr`; the fuel only serves to make the
recursion structural, `s.length + 1` is always enough. -/
def splitOnStrAux (p : Str) : Nat → Str → List Str
  | 0, s => [s]
  | fuel + 1, s =>
    match findSub p s with
    | none => [s]
    | some i =>
      if p.length = 0 then [s]
      else s.take i :: splitOnStrAux p fuel (s.drop (i + p.length))

/-- JavaScript `String.prototype.split` with a non-empty string
separator: cut at every leftmost occurrence of `p`. -/
def splitOnStr (p s : Str) : List Str := splitOnStrAux p (s.length + 1) s

/-- The tail of the source regexes `/<literal>:\s*(.+)/`: skip
whitespace, then capture.  With `dotall` set (the `/s` flag, used by the
description regex) the capture runs to the end of the text; without it
the capture stops at the next newline.  The `else` branches realise the
backtracking of the greedy `\s*` when everything after the literal is
whitespace. -/
def matchTail (dotall : Bool) (t : Str) : Option Str :=
  let w := t.dropWhile isWs
  if w.isEmpty then
    if dotall then
      match t.reverse with
      | [] => none
      | c :: _ => some [c]
    else
      match t.reverse.dropWhile (fun c => c = '\n') with
      | [] => none
      | c :: _ => some [c]
  else
    some (if dotall then w else w.takeWhile (fun c => c ≠ '\n'))

/-- Fueled worker for `matchKV`. -/
def matchKVAux (lit : Str) (dotall : Bool) : Nat → Str → Option Str
  | 0, _ => none
  | fuel + 1, s =>
    match s, findSub lit s with
    | _, none => none
    | [], some _ => matchTail dotall []
    | _ :: _, some i =>
      match matchTail dotall (s.drop (i + lit.length)) with
      | some cap => some cap
      | none => matchKVAux lit dotall fuel (s.drop (i + 1))

/-- JavaScript `s.match(/<lit>\s*(.+)/<flags>)?.[1]`: scan for the first
position where the whole pattern matches and return the capture
group. -/
def matchKV (lit : Str) (dotall : Bool) (s : Str) : Option Str :=
  matchKVAux lit dotall (s.length + 1) s

/-! ## Data model (src/types.ts) -/

/-- `GroundingSource` from `src/types.ts`. -/
structure GroundingSource where
  title : Str
  uri : Str
deriving DecidableEq, Repr

/-- `FoodRecommendation` from `src/types.ts`. -/
structure FoodRecommendation where
  id : Str
  title : Str
  description : Str
  sources : List GroundingSource
deriving DecidableEq, Repr

/-- `Recipe` from `src/types.ts`. -/
structure Recipe where
  dishName : Str
  prepTime : Str
  servings : Str
  ingredients : List Str
  instructions : List Str
  sources : List GroundingSource
deriving DecidableEq, Repr

/-- `Attachment` from `src/types.ts` (the opaque browser `File` handle
is not part of the embedding; only the fields the orchestration logic
reads are kept). -/
structure Attachment where
  previewUrl : Str
  mimeType : Str
  base64Data : Str
deriving DecidableEq, Repr

/-- `SearchState` from `src/types.ts`; optional fields become `Option`,
`error : string | null` becomes `Option Str`. -/
structure SearchState where
  isLoading : Bool
  results : List FoodRecommendation
  error : Option Str
  rawText : Option Str
  allSources : Option (List GroundingSource)
  videoUrl : Option Str
  imageUrl : Option Str
deriving DecidableEq, Repr

/-! ## Source extraction (src/services/gemini.ts, `extractSources`) -/

/-- The `chunk.web` object of a grounding chunk: both fields may be
absent. -/
structure WebInfo where
  title : Option Str
  uri : Option Str
deriving DecidableEq, Repr

/-- The `chunk.maps` object of a grounding chunk. -/
structure MapsInfo where
  title : Option Str
  uri : Option Str
deriving DecidableEq, Repr

/-- A grounding-metadata chunk as consumed by `extractSources`. -/
structure Chunk where
  web : Option WebInfo
  maps : Option MapsInfo
deriving DecidableEq, Repr

/-- JavaScript `a || d` for an optional string `a`: `undefined` and the
empty string are falsy. -/
def jsOrStr (o : Option Str) (d : Str) : Str :=
  match o with
  | none => d
  | some s => if s.isEmpty then d else s

/-- `extractSources` (gemini.ts lines 7-34): flat-map each chunk to its
web/maps sources (web URIs default to `"#"`, maps entries are pushed
only when a truthy URI is present), then drop every source whose URI is
`"#"`. -/
def extractSources (groundingChunks : List Chunk) : List GroundingSource :=
  (groundingChunks.flatMap fun chunk =>
    (match chunk.web with
     | some w => [{ title := jsOrStr w.title (str "Web Source"),
                    uri := jsOrStr w.uri (str "#") }]
     | none => []) ++
    (match chunk.maps with
     | some m =>
       match m.uri with
       | some u =>
         if u.isEmpty then []
         else [{ title := jsOrStr m.title (str "Google Maps Location"), uri := u }]
       | none => []
     | none => [])
  ).filter (fun s => decide (s.uri ≠ str "#"))

/-! ## Mode resolution (src/services/gemini.ts, `getModelConfig`) -/

/-- The two tools the source ever enables. -/
inductive Tool where
  | googleSearch
  | googleMaps
deriving DecidableEq, Repr

/-- The `thinkingConfig` object. -/
structure ThinkingConfig where
  thinkingBudget : Nat
deriving DecidableEq, Repr

/-- Geographic coordinates from the geolocation capability provider.
Only carried around, never computed with, so an exact field type
suffices in place of floating point. -/
structure LatLng where
  latitude : Int
  longitude : Int
deriving DecidableEq, Repr

/-- The request configuration `getModelConfig` returns: model
identifier, tool list, optional thinking budget and optional
`toolConfig.retrievalConfig.latLng` routing hint. -/
structure ModelConfig where
  model : Str
  tools : List Tool
  thinkingConfig : Option ThinkingConfig
  toolConfig : Option LatLng
deriving DecidableEq, Repr

/-- `getModelConfig` (gemini.ts lines 58-93).  The mode is a runtime
string; `location` stands for the result of `getCurrentLocation()`
(`undefined` when geolocation is unavailable or denied).  Defaults are
`gemini-2.5-flash` with the Google-Search tool; the `if`/`else if`
chain overrides them per recognized mode and any other value falls
through with the defaults unchanged. -/
def getModelConfig (mode : Str) (location : Option LatLng) : ModelConfig :=
  if mode = str "fast" then
    { model := str "gemini-2.5-flash-lite", tools := [Tool.googleSearch],
      thinkingConfig := none, toolConfig := none }
  else if mode = str "thinking" then
    { model := str "gemini-3-pro-preview", tools := [Tool.googleSearch],
      thinkingConfig := some ⟨32768⟩, toolConfig := none }
  else if mode = str "restaurants" then
    { model := str "gemini-2.5-flash", tools := [Tool.googleMaps],
      thinkingConfig := none, toolConfig := location }
  else if mode = str "search_agent" then
    { model := str "gemini-2.5-flash", tools := [Tool.googleSearch],
      thinkingConfig := none, toolConfig := none }
  else
    { model := str "gemini-2.5-flash", tools := [Tool.googleSearch],
      thinkingConfig := none, toolConfig := none }

/-! ## Recommendation parsing (src/services/gemini.ts, lines 199-217) -/

/-- The block-start marker. -/
def itemStart : Str := str "### ITEM_START"

/-- The block-end marker. -/
def itemEnd : Str := str "### ITEM_END"

/-- One iteration of the `parts.forEach` loop: a segment is kept only
when it contains the end marker and both the `Name:` and `Description:`
regexes match on the trimmed text before that marker. -/
def parseBlock (index : Nat) (part : Str) : Option FoodRecommendation :=
  if containsSub itemEnd part then
    let content := trimStr ((splitOnStr itemEnd part).headD [])
    match matchKV (str "Name:") false content,
          matchKV (str "Description:") true content with
    | some n, some d =>
      some { id := str "rec-" ++ (toString index).data,
             title := trimStr n, description := trimStr d, sources := [] }
    | _, _ => none
  else none

/-- The parsing loop of `getFoodRecommendations`: split the response
text on the start marker and run `parseBlock` over the segments with
their `forEach` indices (index 0 is the text before the first
marker). -/
def parseRecommendations (text : Str) : List FoodRecommendation :=
  ((splitOnStr itemStart text).enum).filterMap fun p => parseBlock p.1 p.2

/-! ## Recipe lookup (src/services/gemini.ts, `getDishRecipe`) -/

/-- Mode coercion at the top of `getDishRecipe` (line 233): the four
specialized modes collapse to `normal`, everything else passes
through. -/
def effectiveMode (mode : Str) : Str :=
  if mode = str "video" || mode = str "image" || mode = str "restaurants"
      || mode = str "search_agent" then str "normal" else mode

/-- The configuration `getDishRecipe` actually requests (line 235). -/
def getDishRecipeConfig (mode : Str) (location : Option LatLng) : ModelConfig :=
  getModelConfig (effectiveMode mode) location

/-- `replace(/^-\s*/, "")`: remove a leading dash and the whitespace
after it. -/
def stripDash (s : Str) : Str :=
  match s with
  | '-' :: rest => rest.dropWhile isWs
  | _ => s

/-- `replace(/^\*\s*/, "")`. -/
def stripStar (s : Str) : Str :=
  match s with
  | '*' :: rest => rest.dropWhile isWs
  | _ => s

/-- `replace(/^\d+\.\s*/, "")`: remove a leading ordinal (`1.`, `12.`,
...) and the whitespace after it. -/
def stripOrdinal (s : Str) : Str :=
  let ds := s.takeWhile Char.isDigit
  if ds.isEmpty then s
  else
    match s.drop ds.length with
    | '.' :: rest => rest.dropWhile isWs
    | _ => s

/-- Per-line ingredient clean-up (line 277):
`line.trim().replace(/^-\s*/, "").replace(/^\*\s*/, "")`. -/
def cleanIngredientLine (line : Str) : Str :=
  stripStar (stripDash (trimStr line))

/-- Per-line instruction clean-up (line 283):
`line.trim().replace(/^\d+\.\s*/, "")`. -/
def cleanInstructionLine (line : Str) : Str :=
  stripOrdinal (trimStr line)

/-- `text.split(startMarker)[1]?.split(endMarker)[0] || ""` (lines 274
and 280): the text between the first occurrence of `startMarker` and
the next occurrence of `endMarker` after it, `""` when `startMarker`
does not occur. -/
def blockBetween (startMarker endMarker text : Str) : Str :=
  match (splitOnStr startMarker text).get? 1 with
  | none => []
  | some t => (splitOnStr endMarker t).headD []

/-- The response-parsing part of `getDishRecipe` (lines 266-293);
`text` is `response.text || ""`. -/
def parseRecipe (dishName text : Str) (sources : List GroundingSource) : Recipe :=
  let prepTime := (matchKV (str "PREP_TIME:") false text).getD (str "Varies")
  let servings := (matchKV (str "SERVINGS:") false text).getD (str "Varies")
  let ingredientsBlock := blockBetween (str "INGREDIENTS_START") (str "INGREDIENTS_END") text
  let ingredients :=
    ((splitOnStr (str "\n") ingredientsBlock).map cleanIngredientLine).filter
      (fun line => decide (0 < line.length))
  let instructionsBlock := blockBetween (str "INSTRUCTIONS_START") (str "INSTRUCTIONS_END") text
  let instructions :=
    ((splitOnStr (str "\n") instructionsBlock).map cleanInstructionLine).filter
      (fun line => decide (0 < line.length))
  { dishName := dishName, prepTime := trimStr prepTime, servings := trimStr servings,
    ingredients := ingredients, instructions := instructions, sources := sources }

/-! ## Video generation (src/services/gemini.ts, `generateFoodVideo`) -/

/-- A Veo operation handle as observed by the client: the completion
flag and (flattened) `response?.generatedVideos?.[0]?.video?.uri`. -/
structure VideoOp where
  done : Bool
  uri : Option Str
deriving DecidableEq, Repr

/-- Events of the polling loop, for counting iterations: the fixed
5000 ms sleep and the `getVideosOperation` status call. -/
inductive VideoEvent where
  | wait (ms : Nat)
  | poll
deriving DecidableEq, Repr

/-- The `while (!operation.done)` loop (lines 324-327), driven by the
schedule `polls` of successive backend answers.  `none` models a
backend that is still reporting not-done when the schedule ends: the
loop has not terminated.  The trace records one 5-second wait before
each status call. -/
def pollVideo : VideoOp → List VideoOp → Option (VideoOp × List VideoEvent)
  | op, [] => if op.done then some (op, []) else none
  | op, p :: rest =>
    if op.done then some (op, [])
    else
      match pollVideo p rest with
      | some (f, tr) => some (f, VideoEvent.wait 5000 :: VideoEvent.poll :: tr)
      | none => none

/-- `generateFoodVideo` after job submission (lines 313-335): poll to
completion, then either fail (`Except.error`, the
`"No video URI returned from Veo."` throw) or return
`` `${uri}&key=${apiKey}` ``.  The source guard `if (!uri) throw` uses
JavaScript falsiness, so a missing uri and an empty-string uri both
fail.  `none` again means the loop never exits. -/
def generateFoodVideo (apiKey : Str) (initialOp : VideoOp) (polls : List VideoOp) :
    Option (Except Unit Str) :=
  (pollVideo initialOp polls).map fun r =>
    match r.1.uri with
    | some uri =>
      if uri.isEmpty then Except.error ()
      else Except.ok (uri ++ str "&key=" ++ apiKey)
    | none => Except.error ()

/-! ## Source-list deduplication (SourceList component) -/

/-- JavaScript `Map.prototype.set` on an association list: an existing
key keeps its position and gets the new value, a new key is appended. -/
def mapSet (m : List (Str × GroundingSource)) (k : Str) (v : GroundingSource) :
    List (Str × GroundingSource) :=
  if m.any (fun e => decide (e.1 = k)) then
    m.map (fun e => if e.1 = k then (k, v) else e)
  else m ++ [(k, v)]

/-- The deduplication in the `SourceList` component:
`Array.from(new Map(sources.map(item => [item.uri, item])).values())`. -/
def dedupeSources (sources : List GroundingSource) : List GroundingSource :=
  (sources.foldl (fun m s => mapSet m s.uri s) []).map Prod.snd

/-! ## The search handler (src/App.tsx, `handleSearch`) -/

/-- What `getFoodRecommendations` resolves to on success. -/
structure RecResult where
  recommendations : List FoodRecommendation
  rawText : Str
  allSources : List GroundingSource
deriving DecidableEq, Repr

/-- Network calls made by the services, for the no-network-call
property: the Veo job submission, a poll of the job, and a plain
`generateContent` request. -/
inductive NetCall where
  | submitVideoJob
  | pollVideoJob
  | generateContent
deriving DecidableEq, Repr

/-- `generateFoodVideo` with its network-call trace: one submission,
then one poll call per loop iteration (all schedule entries are
consumed when the loop never exits). -/
def generateFoodVideoRun (apiKey : Str) (initialOp : VideoOp) (polls : List VideoOp) :
    Option (Except Unit Str) × List NetCall :=
  match pollVideo initialOp polls with
  | some (f, tr) =>
    (some (match f.uri with
           | some uri =>
             if uri.isEmpty then Except.error ()
             else Except.ok (uri ++ str "&key=" ++ apiKey)
           | none => Except.error ()),
     NetCall.submitVideoJob ::
       (tr.filter (fun e => decide (e = VideoEvent.poll))).map (fun _ => NetCall.pollVideoJob))
  | none =>
    (none, NetCall.submitVideoJob :: polls.map (fun _ => NetCall.pollVideoJob))

/-- The error message of the video-attachment rejection (App.tsx line 47). -/
def videoAttachmentMsg : Str :=
  str "Video generation from files is not supported yet. Please use text mode or remove the file."

/-- The error message of the image-attachment rejection (App.tsx line 77). -/
def imageAttachmentMsg : Str :=
  str "Image generation from files is not supported yet. Please use text mode or remove the file."

/-- `handleSearch` (App.tsx lines 30-120) as a function from the mode,
the optional attachment and the behaviours of the three services to the
terminal session state and the network calls performed.  `none` means
the request never completed (the video loop never exited); every
`setState` below is the full replacement object from the source, with
omitted optional fields `none`. -/
def handleSearch (mode : Str) (attachment : Option Attachment)
    (apiKey : Str) (videoInit : VideoOp) (videoPolls : List VideoOp)
    (imageOutcome : Except Unit Str) (recsOutcome : Except Unit RecResult) :
    Option SearchState × List NetCall :=
  if mode = str "video" then
    if attachment.isSome then
      (some { isLoading := false, results := [], error := some videoAttachmentMsg,
              rawText := none, allSources := some [], videoUrl := none, imageUrl := none }, [])
    else
      match generateFoodVideoRun apiKey videoInit videoPolls with
      | (some (Except.ok url), calls) =>
        (some { isLoading := false, results := [], error := none,
                rawText := none, allSources := none, videoUrl := some url, imageUrl := none },
         calls)
      | (some (Except.error _), calls) =>
        (some { isLoading := false, results := [],
                error := some (str "Could not generate video. Please try again later."),
                rawText := none, allSources := some [], videoUrl := none, imageUrl := none },
         calls)
      | (none, calls) => (none, calls)
  else if mode = str "image" then
    if attachment.isSome then
      (some { isLoading := false, results := [], error := some imageAttachmentMsg,
              rawText := none, allSources := some [], videoUrl := none, imageUrl := none }, [])
    else
      match imageOutcome with
      | Except.ok url =>
        (some { isLoading := false, results := [], error := none,
                rawText := none, allSources := none, videoUrl := none, imageUrl := some url },
         [NetCall.generateContent])
      | Except.error _ =>
        (some { isLoading := false, results := [],
                error := some (str "Could not generate image. Please try again later."),
                rawText := none, allSources := some [], videoUrl := none, imageUrl := none },
         [NetCall.generateContent])
  else
    match recsOutcome with
    | Except.ok data =>
      (some { isLoading := false, results := data.recommendations, error := none,
              rawText := some data.rawText, allSources := some data.allSources,
              videoUrl := none, imageUrl := none },
       [NetCall.generateContent])
    | Except.error _ =>
      (some { isLoading := false, results := [],
              error := some (str "Oops! We couldn\x27t find that right now. Please check your connection or API key."),
              rawText := none, allSources := some [], videoUrl := none, imageUrl := none },
       [NetCall.generateContent])

/-- The raw-text fallback condition (App.tsx line 127):
`state.results.length === 0 && state.rawText && !state.isLoading &&
!state.videoUrl && !state.imageUrl` with JavaScript truthiness for
`rawText`. -/
def showRawText (s : SearchState) : Bool :=
  s.results.isEmpty &&
    (match s.rawText with | none => false | some t => !t.isEmpty) &&
    !s.isLoading && !s.videoUrl.isSome && !s.imageUrl.isSome

/-- How many of the four mutually-exclusive result channels are
populated. -/
def countPopulated (s : SearchState) : Nat :=
  (if s.results.isEmpty then 0 else 1) + (if s.videoUrl.isSome then 1 else 0) +
    (if s.imageUrl.isSome then 1 else 0) + (if s.error.isSome then 1 else 0)

/-- The session-state invariant of the specification: at most one
result channel populated; the raw-text fallback only with an empty
recommendation list, no media result, loading over and raw text
present; an error only with all success channels cleared. -/
def sessionInvariant (s : SearchState) : Bool :=
  decide (countPopulated s ≤ 1) &&
    (!showRawText s ||
      (s.results.isEmpty && s.rawText.isSome && !s.isLoading &&
        !s.videoUrl.isSome && !s.imageUrl.isSome)) &&
    (!s.error.isSome ||
      (s.results.isEmpty && !s.videoUrl.isSome && !s.imageUrl.isSome && !s.rawText.isSome))

/-! ## String toolbox: prefixes, occurrences, splitting -/

/-- A separator without a proper border: no nonempty proper prefix of
`p` is also a suffix of `p`.  Both markers of the source have this
property, which makes leftmost-occurrence computations compositional. -/
def borderFree (p : Str) : Prop :=
  ∀ j, j < p.length → 0 < j → p.drop j ≠ p.take (p.length - j)

instance : DecidablePred borderFree := fun p =>
  decidable_of_iff (∀ j < p.length, 0 < j → p.drop j ≠ p.take (p.length - j)) Iff.rfl

/-- The canonical body of a well-formed recommendation block: a
`Name:` line followed by a `Description:` line. -/
def mkBody (n d : Str) : Str :=
  str "\nName: " ++ n ++ str "\nDescription: " ++ d ++ str "\n"

/-- A string suitable as the name text of a well-formed block: free of
both block markers and of the `Description:` key, on one line, and not
blank. -/
def goodName (n : Str) : Prop :=
  containsSub itemStart n = false ∧ containsSub itemEnd n = false ∧
    ('\n' : Char) ∉ n ∧ trimStr n ≠ [] ∧
    containsSub (str "Description:") n = false

/-- A string suitable as the description text of a well-formed block:
free of both block markers and not blank (newlines are fine, the
description regex is dot-all). -/
def goodDesc (d : Str) : Prop :=
  containsSub itemStart d = false ∧ containsSub itemEnd d = false ∧ trimStr d ≠ []

/-- Filler text between blocks: free of both block markers. -/
def noMarks (x : Str) : Prop :=
  containsSub itemStart x = false ∧ containsSub itemEnd x = false

instance : DecidablePred goodName := fun _ => by unfold goodName; infer_instance

instance : DecidablePred goodDesc := fun _ => by unfold goodDesc; infer_instance

instance : DecidablePred noMarks := fun _ => by unfold noMarks; infer_instance

/-- A response text holding exactly three well-formed recommendation
blocks, with arbitrary marker-free text before, between and after
them. -/
def renderItems (pre n1 d1 m1 n2 d2 m2 n3 d3 post : Str) : Str :=
  pre ++ itemStart ++ mkBody n1 d1 ++ itemEnd ++ m1 ++
    itemStart ++ mkBody n2 d2 ++ itemEnd ++ m2 ++
    itemStart ++ mkBody n3 d3 ++ itemEnd ++ post

/-- Join lines with newlines (the inverse of the line split). -/
def joinNL : List Str → Str
  | [] => []
  | [l] => l
  | l :: l2 :: rest => l ++ '\n' :: joinNL (l2 :: rest)

/-- A delimited block whose inner text is the given lines, one per
line. -/
def renderBlockNL (ls : List Str) : Str := '\n' :: (joinNL ls ++ ['\n'])

/-- A recipe response with both delimited blocks present. -/
def renderRecipe (pre : Str) (ls : List Str) (mid : Str) (ms : List Str)
    (post : Str) : Str :=
  pre ++ str "INGREDIENTS_START" ++ renderBlockNL ls ++ str "INGREDIENTS_END" ++
    mid ++ str "INSTRUCTIONS_START" ++ renderBlockNL ms ++
    str "INSTRUCTIONS_END" ++ post

/-- A line suitable for the inside of a delimited block: single-line
and free of the four block markers. -/
def cleanLine (l : Str) : Prop :=
  ('\n' : Char) ∉ l ∧
    containsSub (str "INGREDIENTS_START") l = false ∧
    containsSub (str "INGREDIENTS_END") l = false ∧
    containsSub (str "INSTRUCTIONS_START") l = false ∧
    containsSub (str "INSTRUCTIONS_END") l = false

/-- Filler text around the blocks: free of the two start markers. -/
def cleanFill (x : Str) : Prop :=
  containsSub (str "INGREDIENTS_START") x = false ∧
    containsSub (str "INSTRUCTIONS_START") x = false

instance : DecidablePred cleanLine := fun _ => by unfold cleanLine; infer_instance

instance : DecidablePred cleanFill := fun _ => by unfold cleanFill; infer_instance

/-- A concrete recipe response with one marked line per kind in each
block. -/
def c9ExampleText : Str :=
  str "PREP_TIME: 30 mins\nSERVINGS: 4\nINGREDIENTS_START\n- Tomato\n1. Pepper\nINGREDIENTS_END\nINSTRUCTIONS_START\n1. Chop onions\n- Stir\nINSTRUCTIONS_END"

/-- The distinct URIs of a source list, in first-occurrence order
(`seen` accumulates the URIs already emitted). -/
def distinctUrisAux (seen : List Str) : List GroundingSource → List Str
  | [] => []
  | s :: rest =>
    if s.uri ∈ seen then distinctUrisAux seen rest
    else s.uri :: distinctUrisAux (s.uri :: seen) rest

/-- Distinct URIs in first-occurrence order. -/
def distinctUris (sources : List GroundingSource) : List Str :=
  distinctUrisAux [] sources

/-- The last entry of `l` carrying the given URI. -/
def lastEntryFor (l : List GroundingSource) (u : Str) : Option GroundingSource :=
  l.reverse.find? (fun s => decide (s.uri = u))

/-- The last entry of `l` with URI `k`, defaulting to `v`. -/
def updVal (l : List GroundingSource) (k : Str) (v : GroundingSource) : GroundingSource :=
  (l.reverse.find? (fun s => decide (s.uri = k))).getD v

/-- A concrete response text made of exactly three well-formed
recommendation blocks and nothing else. -/
def c1ExampleText : Str :=
  str "### ITEM_START\nName: A\nDescription: B\n### ITEM_END### ITEM_START\nName: C\nDescription: D\n### ITEM_END### ITEM_START\nName: E\nDescription: F\n### ITEM_END"

/-- The invariant lifted to possibly-unfinished requests: a request
that never completed has not produced a terminal state. -/
def sessionInvariantOpt : Option SearchState → Bool
  | none => true
  | some s => sessionInvariant s

theorem prefixOf_iff (p t : Str) : p.isPrefixOf t = true ↔ ∃ u, t = p ++ u := by
  induction p generalizing t with
  | nil => simp [List.isPrefixOf]
  | cons a p ih =>
    cases t with
    | nil => simp [List.isPrefixOf]
    | cons b t =>
      simp only [List.isPrefixOf, Bool.and_eq_true, beq_iff_eq, ih]
      constructor
      · rintro ⟨rfl, u, rfl⟩; exact ⟨u, rfl⟩
      · rintro ⟨u, h⟩
        cases h
        exact ⟨rfl, u, rfl⟩

theorem suffixOf_iff (s t : Str) : s.isSuffixOf t = true ↔ ∃ u, t = u ++ s := by
  simp only [List.isSuffixOf, prefixOf_iff]
  constructor
  · rintro ⟨u, h⟩
    refine ⟨u.reverse, ?_⟩
    have := congrArg List.reverse h
    simpa using this
  · rintro ⟨u, rfl⟩
    exact ⟨u.reverse, by simp⟩

theorem findSub_of_pre {p t : Str} (h : p.isPrefixOf t = true) : findSub p t = some 0 := by
  cases t with
  | nil =>
    have : p = [] := by
      rcases (prefixOf_iff p []).1 h with ⟨u, hu⟩
      exact (List.append_eq_nil.1 hu.symm).1
    simp [findSub, this, List.isPrefixOf]
  | cons c rest => simp [findSub, h]

theorem contains_of_pre {p t : Str} (h : p.isPrefixOf t = true) : containsSub p t = true := by
  simp [containsSub, findSub_of_pre h]

theorem contains_cons {p : Str} {c : Char} {t : Str} (h : containsSub p t = true) :
    containsSub p (c :: t) = true := by
  simp only [containsSub, Option.isSome_iff_exists] at h ⊢
  obtain ⟨i, hi⟩ := h
  by_cases hp : p.isPrefixOf (c :: t) = true
  · exact ⟨0, by simp [findSub, hp]⟩
  · exact ⟨i + 1, by simp [findSub, hp, hi]⟩

theorem contains_cons_elim {p : Str} {c : Char} {t : Str}
    (h : containsSub p (c :: t) = true) :
    p.isPrefixOf (c :: t) = true ∨ containsSub p t = true := by
  by_cases hp : p.isPrefixOf (c :: t) = true
  · exact Or.inl hp
  · right
    simp only [containsSub, findSub] at h
    rw [if_neg hp] at h
    simpa using h

/-- Decomposition of an occurrence in a concatenation: it lies in `a`,
lies in `b`, or straddles the boundary. -/
theorem contains_append_decomp {p a b : Str} (h : containsSub p (a ++ b) = true) :
    containsSub p a = true ∨ containsSub p b = true ∨
      ∃ j, 0 < j ∧ j < p.length ∧ (p.take j).isSuffixOf a = true ∧
        (p.drop j).isPrefixOf b = true := by
  induction a with
  | nil => simpa using Or.inr (Or.inl (by simpa using h))
  | cons c a ih =>
    rcases contains_cons_elim (by simpa using h) with hp | hin
    · -- an occurrence at position 0 of `(c :: a) ++ b`
      rcases (prefixOf_iff _ _).1 hp with ⟨u, hu⟩
      have hu' : (c :: a) ++ b = p ++ u := by rw [← hu]; simp
      rcases List.append_eq_append_iff.1 hu' with ⟨w, hw1, hw2⟩ | ⟨w, hw1, hw2⟩
      · -- p = (c :: a) ++ w , b = w ++ u
        cases w with
        | nil =>
          left
          exact contains_of_pre ((prefixOf_iff _ _).2 ⟨[], by rw [hw1]; simp⟩)
        | cons w0 ws =>
          right; right
          refine ⟨(c :: a).length, by simp, ?_, ?_, ?_⟩
          · rw [hw1]
            simp only [List.length_append, List.length_cons]
            omega
          · rw [hw1, List.take_left]
            exact (suffixOf_iff _ _).2 ⟨[], by simp⟩
          · rw [hw1, List.drop_left]
            exact (prefixOf_iff _ _).2 ⟨u, hw2⟩
      · -- c :: a = p ++ w
        left
        exact contains_of_pre ((prefixOf_iff _ _).2 ⟨w, hw1⟩)
    · rcases ih hin with h1 | h2 | ⟨j, hj1, hj2, hj3, hj4⟩
      · exact Or.inl (contains_cons h1)
      · exact Or.inr (Or.inl h2)
      · refine Or.inr (Or.inr ⟨j, hj1, hj2, ?_, hj4⟩)
        rcases (suffixOf_iff _ _).1 hj3 with ⟨u, hu⟩
        exact (suffixOf_iff _ _).2 ⟨c :: u, by simp [hu]⟩

/-- No occurrence in a concatenation, given none in either part and no
straddling occurrence. -/
theorem nc_append {p a b : Str} (ha : containsSub p a = false) (hb : containsSub p b = false)
    (hstr : ∀ j, 0 < j → j < p.length →
      ¬((p.take j).isSuffixOf a = true ∧ (p.drop j).isPrefixOf b = true)) :
    containsSub p (a ++ b) = false := by
  by_contra hcon
  have h : containsSub p (a ++ b) = true := by
    cases hc : containsSub p (a ++ b) with
    | false => exact absurd hc hcon
    | true => rfl
  rcases contains_append_decomp h with h1 | h2 | ⟨j, hj1, hj2, hj3, hj4⟩
  · rw [ha] at h1; cases h1
  · rw [hb] at h2; cases h2
  · exact hstr j hj1 hj2 ⟨hj3, hj4⟩

theorem findSub_nil {p : Str} (hp : p ≠ []) : findSub p [] = none := by
  cases p with
  | nil => exact absurd rfl hp
  | cons a p => simp [findSub, List.isPrefixOf]

theorem contains_nil {p : Str} (hp : p ≠ []) : containsSub p [] = false := by
  simp [containsSub, findSub_nil hp]

/-- The leftmost occurrence of a border-free separator in
`a ++ p ++ b` with `p` not occurring in `a` is exactly at `a.length`. -/
theorem findSub_append {p a b : Str} (hbf : borderFree p)
    (ha : containsSub p a = false) : findSub p (a ++ p ++ b) = some a.length := by
  induction a with
  | nil =>
    simpa using findSub_of_pre ((prefixOf_iff p (p ++ b)).2 ⟨b, rfl⟩)
  | cons c a ih =>
    have key : (c :: a) ++ p ++ b = c :: (a ++ p ++ b) := by simp
    rw [key]
    have hnotpre : ¬ p.isPrefixOf (c :: (a ++ p ++ b)) = true := by
      intro hpre
      rcases (prefixOf_iff _ _).1 hpre with ⟨u, hu⟩
      have hu' : (c :: a) ++ (p ++ b) = p ++ u := by
        rw [← hu]; simp
      rcases List.append_eq_append_iff.1 hu' with ⟨w, hw1, hw2⟩ | ⟨w, hw1, hw2⟩
      · -- p = (c :: a) ++ w, and p ++ b = w ++ u
        cases w with
        | nil =>
          have : containsSub p (c :: a) = true :=
            contains_of_pre ((prefixOf_iff _ _).2 ⟨[], by rw [hw1]; simp⟩)
          rw [ha] at this; cases this
        | cons w0 ws =>
          have hlen : p.length = a.length + ws.length + 2 := by
            rw [hw1]
            simp only [List.length_append, List.length_cons]
            omega
          have hdrop : p.drop (c :: a).length = w0 :: ws := by
            rw [hw1, List.drop_left]
          have htake : p.take (w0 :: ws).length = w0 :: ws := by
            have h1 := congrArg (List.take (w0 :: ws).length) hw2
            rw [List.take_append_eq_append_take, List.take_append_eq_append_take,
              Nat.sub_eq_zero_of_le
                (by simp only [List.length_cons]; omega : (w0 :: ws).length ≤ p.length),
              Nat.sub_self, List.take_zero, List.take_zero, List.append_nil,
              List.append_nil, List.take_length] at h1
            exact h1
          exact hbf (c :: a).length
            (by simp only [List.length_cons]; omega)
            (by simp)
            (by
              rw [hdrop,
                show p.length - (c :: a).length = (w0 :: ws).length from by
                  simp only [List.length_cons]; omega,
                htake])
      · -- c :: a = p ++ w
        have : containsSub p (c :: a) = true :=
          contains_of_pre ((prefixOf_iff _ _).2 ⟨w, hw1⟩)
        rw [ha] at this; cases this
    have ha' : containsSub p a = false := by
      cases hc : containsSub p a with
      | false => rfl
      | true => rw [contains_cons hc] at ha; cases ha
    have hIH := ih ha'
    have hstep : findSub p (c :: (a ++ p ++ b)) =
        (findSub p (a ++ p ++ b)).map (· + 1) := by
      simp only [findSub]
      rw [if_neg hnotpre]
    rw [hstep, hIH]
    simp

/-- The fuel of `splitOnStrAux` is irrelevant once it exceeds the
length of the string. -/
theorem splitOnStrAux_fuel (p : Str) :
    ∀ f g s, s.length < f → s.length < g →
      splitOnStrAux p f s = splitOnStrAux p g s := by
  intro f
  induction f with
  | zero => intro g s h1 _; omega
  | succ f ih =>
    intro g s h1 h2
    cases g with
    | zero => omega
    | succ g =>
      cases hfind : findSub p s with
      | none => simp only [splitOnStrAux, hfind]
      | some i =>
        simp only [splitOnStrAux, hfind]
        by_cases hp : p.length = 0
        · rw [if_pos hp, if_pos hp]
        · rw [if_neg hp, if_neg hp]
          have hs : s ≠ [] := by
            intro hnil
            subst hnil
            have hpne : p ≠ [] := fun h => hp (by rw [h]; rfl)
            rw [findSub_nil hpne] at hfind
            cases hfind
          have hlen : (s.drop (i + p.length)).length < s.length := by
            rw [List.length_drop]
            have h0 : 0 < s.length := List.length_pos.2 hs
            omega
          rw [ih g (s.drop (i + p.length)) (by omega) (by omega)]

theorem findSub_eq_none {p s : Str} (h : containsSub p s = false) : findSub p s = none := by
  cases hf : findSub p s with
  | none => rfl
  | some i => rw [containsSub, hf] at h; cases h

theorem splitOnStr_single {p t : Str} (h : containsSub p t = false) :
    splitOnStr p t = [t] := by
  rw [splitOnStr]
  cases t with
  | nil => simp [splitOnStrAux, findSub_eq_none h]
  | cons c rest => simp [splitOnStrAux, findSub_eq_none h]

/-- Splitting off the first field at a border-free separator. -/
theorem splitOnStr_append {p a b : Str} (hp : p ≠ []) (hbf : borderFree p)
    (ha : containsSub p a = false) :
    splitOnStr p (a ++ p ++ b) = a :: splitOnStr p b := by
  have hplen : p.length ≠ 0 := fun h => hp (List.length_eq_zero.1 h)
  have hfind : findSub p (a ++ p ++ b) = some a.length := findSub_append hbf ha
  rw [splitOnStr]
  have hlen1 : (a ++ p ++ b).length + 1 = (a ++ p ++ b).length + 1 := rfl
  simp only [splitOnStrAux, hfind]
  rw [if_neg hplen]
  have htake : (a ++ p ++ b).take a.length = a := by
    rw [List.append_assoc, List.take_left]
  have hdrop : (a ++ p ++ b).drop (a.length + p.length) = b :=
    List.drop_left' (by rw [List.length_append])
  rw [htake, hdrop]
  rw [splitOnStr]
  congr 1
  apply splitOnStrAux_fuel
  · have := List.length_append (a ++ p) b
    simp only [List.length_append] at this ⊢
    omega
  · omega

theorem matchKVAux_succ_pos {lit s : Str} {dotall : Bool} {fuel i : Nat}
    (h : findSub lit s = some i) (hs : s ≠ []) :
    matchKVAux lit dotall (fuel + 1) s =
      match matchTail dotall (s.drop (i + lit.length)) with
      | some cap => some cap
      | none => matchKVAux lit dotall fuel (s.drop (i + 1)) := by
  cases s with
  | nil => exact absurd rfl hs
  | cons c rest => simp only [matchKVAux, h]

/-- Evaluation of the key/value regex when the literal first occurs
right after a literal-free prefix and the tail matches. -/
theorem matchKV_at {lit A tail cap : Str} {dotall : Bool} (hlit : lit ≠ [])
    (hbf : borderFree lit) (hA : containsSub lit A = false)
    (hmt : matchTail dotall tail = some cap) :
    matchKV lit dotall (A ++ lit ++ tail) = some cap := by
  have hs : A ++ lit ++ tail ≠ [] := by
    intro h
    rcases List.append_eq_nil.1 h with ⟨h1, _⟩
    exact hlit (List.append_eq_nil.1 h1).2
  have hfind : findSub lit (A ++ lit ++ tail) = some A.length := findSub_append hbf hA
  rw [matchKV, matchKVAux_succ_pos hfind hs]
  have hdrop : (A ++ lit ++ tail).drop (A.length + lit.length) = tail :=
    List.drop_left' (by rw [List.length_append])
  rw [hdrop, hmt]

theorem matchKV_none {lit s : Str} {dotall : Bool} (h : containsSub lit s = false) :
    matchKV lit dotall s = none := by
  rw [matchKV]
  cases s with
  | nil => simp [matchKVAux, findSub_eq_none h]
  | cons c rest => simp [matchKVAux, findSub_eq_none h]

/-! Straddle dischargers: occurrences cannot run across a boundary when
the pieces on the two sides are textually incompatible with the
separator. -/

theorem straddle_conc {x c : Str} (h1 : x.isPrefixOf c = false)
    (h2 : c.isPrefixOf x = false) (u : Str) :
    x.isPrefixOf (c ++ u) = false := by
  by_contra hcon
  rw [Bool.not_eq_false] at hcon
  rcases (prefixOf_iff _ _).1 hcon with ⟨v, hv⟩
  rcases List.append_eq_append_iff.1 hv with ⟨w, hw1, _⟩ | ⟨w, hw1, _⟩
  · rw [(prefixOf_iff _ _).2 ⟨w, hw1⟩] at h2; cases h2
  · rw [(prefixOf_iff _ _).2 ⟨w, hw1⟩] at h1; cases h1

theorem straddle_nl {p : Str} (hnl : ('\n' : Char) ∉ p) {j : Nat} (hj : j < p.length)
    (X : Str) : (p.drop j).isPrefixOf ('\n' :: X) = false := by
  cases hd : p.drop j with
  | nil =>
    have hlen := congrArg List.length hd
    rw [List.length_drop] at hlen
    simp at hlen
    omega
  | cons c cs =>
    by_contra hcon
    rw [Bool.not_eq_false] at hcon
    simp only [List.isPrefixOf, Bool.and_eq_true, beq_iff_eq] at hcon
    have hc : c ∈ p := List.mem_of_mem_drop (hd ▸ List.mem_cons_self c cs)
    rw [hcon.1] at hc
    exact hnl hc

theorem singleton_suffix_mem {p : Str} {d : Char} {j : Nat} (hj : 0 < j)
    (hj2 : j < p.length) (h : (p.take j).isSuffixOf [d] = true) : d ∈ p := by
  rcases (suffixOf_iff _ _).1 h with ⟨u, hu⟩
  have hlen : 1 = u.length + (p.take j).length := by
    have := congrArg List.length hu
    simpa using this
  rw [List.length_take] at hlen
  have hmin : min j p.length = j := Nat.min_eq_left (Nat.le_of_lt hj2)
  rw [hmin] at hlen
  have hu0 : u = [] := by
    cases u with
    | nil => rfl
    | cons x xs => simp at hlen; omega
  subst hu0
  simp only [List.nil_append] at hu
  have : d ∈ p.take j := by rw [← hu]; exact List.mem_cons_self d []
  exact List.mem_of_mem_take this

theorem contains_single {p : Str} {d : Char} (hp : p ≠ [])
    (h : containsSub p [d] = true) : p = [d] := by
  have hpre : p.isPrefixOf [d] = true := by
    by_cases hc : p.isPrefixOf [d] = true
    · exact hc
    · rw [containsSub, findSub, if_neg hc, findSub_nil hp] at h
      cases h
  rcases (prefixOf_iff _ _).1 hpre with ⟨u, hu⟩
  cases p with
  | nil => exact absurd rfl hp
  | cons c cs =>
    simp only [List.cons_append] at hu
    injection hu with h1 h2
    rcases List.append_eq_nil.1 h2.symm with ⟨hcs, _⟩
    rw [h1, hcs]

/-! ## Trim toolbox -/

theorem dropWhile_append_sat {q : Char → Bool} {x : Str} (h : ∀ c ∈ x, q c = true)
    (y : Str) : (x ++ y).dropWhile q = y.dropWhile q := by
  induction x with
  | nil => rfl
  | cons c cs ih =>
    rw [List.cons_append, List.dropWhile_cons_of_pos (h c (List.mem_cons_self c cs))]
    exact ih (fun d hd => h d (List.mem_cons_of_mem c hd))

theorem dropWhile_append_hit {q : Char → Bool} {x : Str} (h : x.dropWhile q ≠ [])
    (y : Str) : (x ++ y).dropWhile q = x.dropWhile q ++ y := by
  induction x with
  | nil => exact absurd rfl h
  | cons c cs ih =>
    by_cases hc : q c = true
    · rw [List.cons_append, List.dropWhile_cons_of_pos hc, List.dropWhile_cons_of_pos hc]
      rw [List.dropWhile_cons_of_pos hc] at h
      exact ih h
    · rw [List.cons_append, List.dropWhile_cons_of_neg (by simpa using hc),
        List.dropWhile_cons_of_neg (by simpa using hc), List.cons_append]

theorem takeWhile_append_sat {q : Char → Bool} {x : Str} (h : ∀ c ∈ x, q c = true)
    (y : Str) : (x ++ y).takeWhile q = x ++ y.takeWhile q := by
  induction x with
  | nil => rfl
  | cons c cs ih =>
    rw [List.cons_append, List.takeWhile_cons_of_pos (h c (List.mem_cons_self c cs)),
      ih (fun d hd => h d (List.mem_cons_of_mem c hd)), List.cons_append]

theorem ltrim_append_ws {x : Str} (h : ∀ c ∈ x, isWs c = true) (y : Str) :
    ltrim (x ++ y) = ltrim y := dropWhile_append_sat h y

theorem ltrim_append_hit {x : Str} (h : ltrim x ≠ []) (y : Str) :
    ltrim (x ++ y) = ltrim x ++ y := dropWhile_append_hit h y

theorem rtrim_append_hit {y : Str} (h : rtrim y ≠ []) (x : Str) :
    rtrim (x ++ y) = x ++ rtrim y := by
  have hy : y.reverse.dropWhile isWs ≠ [] := by
    intro hc
    apply h
    rw [rtrim, hc]
    rfl
  rw [rtrim, List.reverse_append, dropWhile_append_hit hy, List.reverse_append,
    List.reverse_reverse, rtrim]

theorem rtrim_append_ws {y : Str} (h : ∀ c ∈ y, isWs c = true) (x : Str) :
    rtrim (x ++ y) = rtrim x := by
  rw [rtrim, List.reverse_append,
    dropWhile_append_sat (fun c hc => h c (List.mem_reverse.1 hc)), ← rtrim]

theorem ltrim_eq_nil_iff {s : Str} : ltrim s = [] ↔ ∀ c ∈ s, isWs c = true := by
  rw [ltrim, List.dropWhile_eq_nil_iff]

theorem rtrim_eq_nil_iff {s : Str} : rtrim s = [] ↔ ∀ c ∈ s, isWs c = true := by
  rw [rtrim]
  constructor
  · intro h c hc
    have := congrArg List.reverse h
    rw [List.reverse_reverse] at this
    have h2 : s.reverse.dropWhile isWs = [] := by simpa using this
    exact (List.dropWhile_eq_nil_iff.1 h2) c (List.mem_reverse.2 hc)
  · intro h
    rw [List.dropWhile_eq_nil_iff.2 (fun c hc => h c (List.mem_reverse.1 hc))]
    rfl

theorem rtrim_decomp (s : Str) :
    ∃ w, s = rtrim s ++ w ∧ ∀ c ∈ w, isWs c = true := by
  refine ⟨(s.reverse.takeWhile isWs).reverse, ?_, ?_⟩
  · rw [rtrim, ← List.reverse_append, List.takeWhile_append_dropWhile,
      List.reverse_reverse]
  · intro c hc
    exact List.mem_takeWhile_imp (List.mem_reverse.1 hc)

theorem ltrim_decomp (s : Str) :
    ∃ w, s = w ++ ltrim s ∧ ∀ c ∈ w, isWs c = true := by
  refine ⟨s.takeWhile isWs, ?_, ?_⟩
  · rw [ltrim, List.takeWhile_append_dropWhile]
  · intro c hc
    exact List.mem_takeWhile_imp hc

theorem rtrim_ne_of_trim_ne {s : Str} (h : trimStr s ≠ []) : rtrim s ≠ [] := by
  intro hc
  apply h
  rw [trimStr, hc]
  rfl

theorem ltrim_ne_of_trim_ne {s : Str} (h : trimStr s ≠ []) : ltrim s ≠ [] := by
  intro hc
  apply h
  have hws : ∀ c ∈ s, isWs c = true := ltrim_eq_nil_iff.1 hc
  rw [trimStr, rtrim_eq_nil_iff.2 hws]
  rfl

theorem ltrim_idem (s : Str) : ltrim (ltrim s) = ltrim s := by
  cases h : ltrim s with
  | nil => rfl
  | cons c cs =>
    have hne : s.dropWhile isWs ≠ [] := by rw [← ltrim]; rw [h]; intro hc; cases hc
    have hhead := List.head_dropWhile_not isWs s hne
    have hc : isWs c = false := by
      have : (s.dropWhile isWs).head hne = c := by
        have : s.dropWhile isWs = c :: cs := h
        simp [this]
      rwa [this] at hhead
    rw [ltrim, List.dropWhile_cons_of_neg (by simp [hc])]

theorem rtrim_idem (s : Str) : rtrim (rtrim s) = rtrim s := by
  rw [rtrim, rtrim, List.reverse_reverse]
  have : ∀ t : Str, (t.dropWhile isWs).dropWhile isWs = t.dropWhile isWs := by
    intro t
    have := ltrim_idem t
    rwa [ltrim, ltrim] at this
  rw [this]

theorem trim_ltrim (s : Str) : trimStr (ltrim s) = trimStr s := by
  obtain ⟨w, hw, hws⟩ := ltrim_decomp s
  by_cases h : rtrim (ltrim s) = []
  · have hall : ∀ c ∈ ltrim s, isWs c = true := rtrim_eq_nil_iff.1 h
    have hsall : ∀ c ∈ s, isWs c = true := by
      intro c hc
      rw [hw] at hc
      rcases List.mem_append.1 hc with h1 | h1
      · exact hws c h1
      · exact hall c h1
    rw [trimStr, trimStr, h, rtrim_eq_nil_iff.2 hsall]
  · rw [trimStr, trimStr]
    conv_rhs => rw [hw]
    rw [rtrim_append_hit h, ltrim_append_ws hws]

theorem trim_idem (s : Str) : trimStr (trimStr s) = trimStr s := by
  calc trimStr (trimStr s) = trimStr (ltrim (rtrim s)) := rfl
    _ = trimStr (rtrim s) := trim_ltrim (rtrim s)
    _ = ltrim (rtrim (rtrim s)) := rfl
    _ = ltrim (rtrim s) := by rw [rtrim_idem]
    _ = trimStr s := rfl

/-! ## Well-formed recommendation blocks and their parse -/

theorem mkBody_free {p n d : Str} (hp : p ≠ []) (hnl : ('\n' : Char) ∉ p)
    (h1 : containsSub p (str "Name: ") = false)
    (h2 : containsSub p (str "Description: ") = false)
    (h3 : ∀ j, j < p.length → 0 < j → (p.take j).isSuffixOf (str "Name: ") = false)
    (h4 : ∀ j, j < p.length → 0 < j → (p.take j).isSuffixOf (str "Description: ") = false)
    (hn : containsSub p n = false) (hd : containsSub p d = false) :
    containsSub p (mkBody n d) = false := by
  have hone : containsSub p (str "\n") = false := by
    cases hc : containsSub p (str "\n") with
    | false => rfl
    | true =>
      have := contains_single hp hc
      rw [this] at hnl
      exact absurd (List.mem_cons_self _ _) hnl
  have step1 : containsSub p (d ++ str "\n") = false := by
    refine nc_append hd hone ?_
    intro j hj1 hj2 ⟨_, hpre⟩
    rw [show (str "\n" : Str) = '\n' :: [] from rfl, straddle_nl hnl hj2] at hpre
    cases hpre
  have step2a : containsSub p (str "Description: " ++ (d ++ str "\n")) = false := by
    refine nc_append h2 step1 ?_
    intro j hj1 hj2 ⟨hsuf, _⟩
    rw [h4 j hj2 hj1] at hsuf
    cases hsuf
  have step2 : containsSub p (('\n' : Char) :: (str "Description: " ++ (d ++ str "\n"))) = false := by
    have := nc_append (a := ['\n']) hone step2a ?_
    · simpa using this
    · intro j hj1 hj2 ⟨hsuf, _⟩
      exact hnl (singleton_suffix_mem hj1 hj2 hsuf)
  have step3 : containsSub p (n ++ ('\n' :: (str "Description: " ++ (d ++ str "\n")))) = false := by
    refine nc_append hn step2 ?_
    intro j hj1 hj2 ⟨_, hpre⟩
    rw [straddle_nl hnl hj2] at hpre
    cases hpre
  have step4a : containsSub p (str "Name: " ++ (n ++ ('\n' :: (str "Description: " ++ (d ++ str "\n"))))) = false := by
    refine nc_append h1 step3 ?_
    intro j hj1 hj2 ⟨hsuf, _⟩
    rw [h3 j hj2 hj1] at hsuf
    cases hsuf
  have step4 : containsSub p (('\n' : Char) :: (str "Name: " ++ (n ++ ('\n' :: (str "Description: " ++ (d ++ str "\n")))))) = false := by
    have := nc_append (a := ['\n']) hone step4a ?_
    · simpa using this
    · intro j hj1 hj2 ⟨hsuf, _⟩
      exact hnl (singleton_suffix_mem hj1 hj2 hsuf)
  have hshape : mkBody n d =
      ('\n' : Char) :: (str "Name: " ++ (n ++ ('\n' :: (str "Description: " ++ (d ++ str "\n"))))) := by
    simp [mkBody, str]
  rw [hshape]
  exact step4

theorem mkBody_free_start {n d : Str} (hn : containsSub itemStart n = false)
    (hd : containsSub itemStart d = false) :
    containsSub itemStart (mkBody n d) = false :=
  mkBody_free (by decide) (by decide) (by decide) (by decide) (by decide) (by decide) hn hd

theorem mkBody_free_end {n d : Str} (hn : containsSub itemEnd n = false)
    (hd : containsSub itemEnd d = false) :
    containsSub itemEnd (mkBody n d) = false :=
  mkBody_free (by decide) (by decide) (by decide) (by decide) (by decide) (by decide) hn hd

/-- The trimmed content of a well-formed body. -/
theorem trim_mkBody {n d : Str} (hd : trimStr d ≠ []) :
    trimStr (mkBody n d) = str "Name: " ++ n ++ str "\nDescription: " ++ rtrim d := by
  have hrd : rtrim (d ++ str "\n") = rtrim d := by
    apply rtrim_append_ws
    intro c hc
    simp only [str] at hc
    simp at hc
    rw [hc]
    rfl
  have hrdne : rtrim d ≠ [] := rtrim_ne_of_trim_ne hd
  have hassoc : mkBody n d =
      (str "\nName: " ++ n ++ str "\nDescription: ") ++ (d ++ str "\n") := by
    simp [mkBody, List.append_assoc]
  have hr : rtrim (mkBody n d) =
      (str "\nName: " ++ n ++ str "\nDescription: ") ++ rtrim d := by
    rw [hassoc, rtrim_append_hit (by rw [hrd]; exact hrdne), hrd]
  have hl : ltrim ((str "\nName: " ++ n ++ str "\nDescription: ") ++ rtrim d) =
      str "Name: " ++ n ++ str "\nDescription: " ++ rtrim d := by
    have hshape : (str "\nName: " ++ n ++ str "\nDescription: ") ++ rtrim d =
        ('\n' : Char) :: ('N' :: (str "ame: " ++ n ++ str "\nDescription: " ++ rtrim d)) := by
      simp [str, List.append_assoc]
    rw [hshape, ltrim, List.dropWhile_cons_of_pos (by decide),
      List.dropWhile_cons_of_neg (by decide)]
    simp [str, List.append_assoc]
  rw [trimStr, hr, hl]

theorem matchTail_eval_pos {t : Str} {c : Char} {cs : Str}
    (h : t.dropWhile isWs = c :: cs) (dotall : Bool) :
    matchTail dotall t =
      some (if dotall then c :: cs else (c :: cs).takeWhile (fun x => x ≠ '\n')) := by
  simp only [matchTail, h]
  rfl

theorem mem_ltrim {n : Str} {c : Char} (h : c ∈ ltrim n) : c ∈ n :=
  (List.dropWhile_suffix isWs).subset h

/-- Evaluation of the `Name:` regex tail on a well-formed name line. -/
theorem matchTail_name {n : Str} (hnl : ('\n' : Char) ∉ n) (hne : ltrim n ≠ []) (Y : Str) :
    matchTail false (str " " ++ (n ++ ('\n' :: Y))) = some (ltrim n) := by
  have hw : (str " " ++ (n ++ ('\n' :: Y))).dropWhile isWs = ltrim n ++ ('\n' :: Y) := by
    have h1 : str " " ++ (n ++ ('\n' :: Y)) = ' ' :: (n ++ ('\n' :: Y)) := rfl
    rw [h1, List.dropWhile_cons_of_pos (by decide)]
    exact dropWhile_append_hit hne ('\n' :: Y)
  have hmem : ∀ x ∈ ltrim n, (fun x => decide (x ≠ '\n')) x = true := by
    intro x hx
    simp only [decide_eq_true_eq]
    intro hxeq
    exact hnl (hxeq ▸ mem_ltrim hx)
  cases hlt : ltrim n with
  | nil => exact absurd hlt hne
  | cons a as =>
    rw [hlt] at hw
    have hall : ∀ x ∈ (a :: as : Str), (fun x => decide (x ≠ '\n')) x = true := by
      intro x hx
      exact hmem x (by rw [hlt]; exact hx)
    have htw : List.takeWhile (fun x => decide (x ≠ '\n')) ((a :: as) ++ ('\n' :: Y)) =
        a :: as := by
      have h1 := takeWhile_append_sat hall ('\n' :: Y)
      rw [List.takeWhile_cons_of_neg (by simp), List.append_nil] at h1
      exact h1
    rw [matchTail_eval_pos hw false]
    have hif : (if false = true then ((a :: as) ++ ('\n' :: Y))
        else List.takeWhile (fun x => decide (x ≠ '\n')) ((a :: as) ++ ('\n' :: Y))) =
        a :: as := by
      rw [if_neg (by simp), htw]
    exact congrArg some hif

/-- Evaluation of the dot-all `Description:` regex tail. -/
theorem matchTail_desc {d : Str} (hne : trimStr d ≠ []) :
    matchTail true (str " " ++ rtrim d) = some (trimStr d) := by
  have hw : (str " " ++ rtrim d).dropWhile isWs = trimStr d := by
    have h1 : str " " ++ rtrim d = ' ' :: rtrim d := rfl
    rw [h1, List.dropWhile_cons_of_pos (by decide)]
    rfl
  cases hlt : trimStr d with
  | nil => exact absurd hlt hne
  | cons a as =>
    rw [hlt] at hw
    rw [matchTail_eval_pos hw true]
    have hif : (if true = true then (a :: as)
        else List.takeWhile (fun x => decide (x ≠ '\n')) (a :: as)) = a :: as := by
      rw [if_pos rfl]
    exact congrArg some hif

/-- A well-formed part between two start markers parses to a record
with the position-based identifier and the trimmed name and
description. -/
theorem parseBlock_eval (i : Nat) {n d : Str} (m : Str)
    (hgn : goodName n) (hgd : goodDesc d) :
    parseBlock i (mkBody n d ++ itemEnd ++ m) =
      some { id := str "rec-" ++ (toString i).data, title := trimStr n,
             description := trimStr d, sources := [] } := by
  obtain ⟨hnS, hnE, hnNl, hnNe, hnD⟩ := hgn
  obtain ⟨hdS, hdE, hdNe⟩ := hgd
  have hbodyE : containsSub itemEnd (mkBody n d) = false := mkBody_free_end hnE hdE
  have hassoc : mkBody n d ++ itemEnd ++ m = mkBody n d ++ itemEnd ++ m := rfl
  have hcontE : containsSub itemEnd (mkBody n d ++ itemEnd ++ m) = true := by
    rw [containsSub, findSub_append (by decide) hbodyE]
    rfl
  have hsplit : splitOnStr itemEnd (mkBody n d ++ itemEnd ++ m) =
      mkBody n d :: splitOnStr itemEnd m :=
    splitOnStr_append (by decide) (by decide) hbodyE
  have hcontent : trimStr ((splitOnStr itemEnd (mkBody n d ++ itemEnd ++ m)).headD []) =
      str "Name: " ++ n ++ str "\nDescription: " ++ rtrim d := by
    rw [hsplit]
    exact trim_mkBody hdNe
  -- Name: match
  have hnameShape : str "Name: " ++ n ++ str "\nDescription: " ++ rtrim d =
      ([] : Str) ++ str "Name:" ++ (str " " ++ (n ++ ('\n' ::
        (str "Description:" ++ (str " " ++ rtrim d))))) := by
    simp [str, List.append_assoc]
  have hname : matchKV (str "Name:") false
      (str "Name: " ++ n ++ str "\nDescription: " ++ rtrim d) = some (ltrim n) := by
    rw [hnameShape]
    exact matchKV_at (by decide) (by decide) (by decide)
      (matchTail_name hnNl (ltrim_ne_of_trim_ne hnNe) _)
  -- Description: match
  have hdescA : containsSub (str "Description:") (str "Name: " ++ (n ++ ['\n'])) = false := by
    have hin : containsSub (str "Description:") (n ++ ['\n']) = false := by
      refine nc_append hnD (by decide) ?_
      intro j hj1 hj2 ⟨_, hpre⟩
      rw [show (['\n'] : Str) = '\n' :: [] from rfl,
        straddle_nl (by decide) hj2] at hpre
      cases hpre
    refine nc_append (by decide) hin ?_
    intro j hj1 hj2 ⟨hsuf, _⟩
    have hdec : ∀ j, j < (str "Description:").length → 0 < j →
        ((str "Description:").take j).isSuffixOf (str "Name: ") = false := by decide
    rw [hdec j hj2 hj1] at hsuf
    cases hsuf
  have hdescShape : str "Name: " ++ n ++ str "\nDescription: " ++ rtrim d =
      (str "Name: " ++ (n ++ ['\n'])) ++ str "Description:" ++ (str " " ++ rtrim d) := by
    simp [str, List.append_assoc]
  have hdesc : matchKV (str "Description:") true
      (str "Name: " ++ n ++ str "\nDescription: " ++ rtrim d) = some (trimStr d) := by
    rw [hdescShape]
    exact matchKV_at (by decide) (by decide) hdescA (matchTail_desc hdNe)
  -- assemble
  simp only [parseBlock, hcontE, if_true, hsplit, List.headD_cons, trim_mkBody hdNe,
    hname, hdesc]
  rw [trim_ltrim, trim_idem]

theorem part_free {n d m : Str} (hn : containsSub itemStart n = false)
    (hd : containsSub itemStart d = false) (hm : containsSub itemStart m = false) :
    containsSub itemStart (mkBody n d ++ itemEnd ++ m) = false := by
  have hEm : containsSub itemStart (itemEnd ++ m) = false := by
    refine nc_append (by decide) hm ?_
    intro j hj1 hj2 ⟨hsuf, _⟩
    have hdec : ∀ j, j < itemStart.length → 0 < j →
        (itemStart.take j).isSuffixOf itemEnd = false := by decide
    rw [hdec j hj2 hj1] at hsuf
    cases hsuf
  rw [List.append_assoc]
  refine nc_append (mkBody_free_start hn hd) hEm ?_
  intro j hj1 hj2 ⟨_, hpre⟩
  have hdec : ∀ j, j < itemStart.length → 0 < j →
      (itemStart.drop j).isPrefixOf itemEnd = false ∧
        itemEnd.isPrefixOf (itemStart.drop j) = false := by decide
  rw [straddle_conc (hdec j hj2 hj1).1 (hdec j hj2 hj1).2 m] at hpre
  cases hpre

theorem parseBlock_none {i : Nat} {part : Str}
    (h : containsSub itemEnd part = false) : parseBlock i part = none := by
  rw [parseBlock, if_neg (by simp [h])]

theorem splitRenderItems {pre n1 d1 m1 n2 d2 m2 n3 d3 post : Str}
    (hpre : containsSub itemStart pre = false)
    (hn1 : containsSub itemStart n1 = false) (hd1 : containsSub itemStart d1 = false)
    (hm1 : containsSub itemStart m1 = false)
    (hn2 : containsSub itemStart n2 = false) (hd2 : containsSub itemStart d2 = false)
    (hm2 : containsSub itemStart m2 = false)
    (hn3 : containsSub itemStart n3 = false) (hd3 : containsSub itemStart d3 = false)
    (hpost : containsSub itemStart post = false) :
    splitOnStr itemStart (renderItems pre n1 d1 m1 n2 d2 m2 n3 d3 post) =
      [pre, mkBody n1 d1 ++ itemEnd ++ m1, mkBody n2 d2 ++ itemEnd ++ m2,
        mkBody n3 d3 ++ itemEnd ++ post] := by
  have e1 : renderItems pre n1 d1 m1 n2 d2 m2 n3 d3 post =
      pre ++ itemStart ++ ((mkBody n1 d1 ++ itemEnd ++ m1) ++ itemStart ++
        ((mkBody n2 d2 ++ itemEnd ++ m2) ++ itemStart ++
          (mkBody n3 d3 ++ itemEnd ++ post))) := by
    simp only [renderItems, List.append_assoc]
  rw [e1, splitOnStr_append (by decide) (by decide) hpre,
    splitOnStr_append (by decide) (by decide) (part_free hn1 hd1 hm1),
    splitOnStr_append (by decide) (by decide) (part_free hn2 hd2 hm2),
    splitOnStr_single (part_free hn3 hd3 hpost)]

/-- C1 (amended): on a response text with exactly 3 well-formed blocks
the parser yields exactly the three records, ids positional over the
raw marker-split segments — hence `rec-1`, `rec-2`, `rec-3`. -/
theorem claim_C1_amended (pre m1 m2 post n1 d1 n2 d2 n3 d3 : Str)
    (hpre : noMarks pre) (hm1 : noMarks m1) (hm2 : noMarks m2) (hpost : noMarks post)
    (hn1 : goodName n1) (hd1 : goodDesc d1)
    (hn2 : goodName n2) (hd2 : goodDesc d2)
    (hn3 : goodName n3) (hd3 : goodDesc d3) :
    parseRecommendations (renderItems pre n1 d1 m1 n2 d2 m2 n3 d3 post) =
      [ { id := str "rec-1", title := trimStr n1, description := trimStr d1, sources := [] },
        { id := str "rec-2", title := trimStr n2, description := trimStr d2, sources := [] },
        { id := str "rec-3", title := trimStr n3, description := trimStr d3, sources := [] } ] := by
  rw [parseRecommendations,
    splitRenderItems hpre.1 hn1.1 hd1.1 hm1.1 hn2.1 hd2.1 hm2.1 hn3.1 hd3.1 hpost.1]
  simp only [List.enum, List.enumFrom, List.filterMap]
  rw [parseBlock_none hpre.2, parseBlock_eval 1 m1 hn1 hd1,
    parseBlock_eval 2 m2 hn2 hd2, parseBlock_eval 3 post hn3 hd3]
  rfl

/-- C1 witness: a concrete three-block response satisfying every
hypothesis of `claim_C1_amended`, with the parse evaluated. -/
theorem claim_C1_witness :
    parseRecommendations (renderItems (str "Here you go!")
      (str "Pizza") (str "Cheesy") (str " junk ")
      (str "Ramen") (str "Hot") (str "")
      (str "Tacos") (str "Crunchy") (str " tail")) =
      [ { id := str "rec-1", title := str "Pizza", description := str "Cheesy", sources := [] },
        { id := str "rec-2", title := str "Ramen", description := str "Hot", sources := [] },
        { id := str "rec-3", title := str "Tacos", description := str "Crunchy", sources := [] } ] := by
  have h := claim_C1_amended (str "Here you go!") (str " junk ") (str "")
    (str " tail") (str "Pizza") (str "Cheesy") (str "Ramen") (str "Hot")
    (str "Tacos") (str "Crunchy")
    (by decide) (by decide) (by decide) (by decide) (by decide) (by decide)
    (by decide) (by decide) (by decide) (by decide)
  rw [h]
  decide

/-! ## Well-formed recipe responses -/

theorem contains_single_char {c : Char} : ∀ {l : Str},
    containsSub [c] l = true → c ∈ l := by
  intro l
  induction l with
  | nil => intro h; rw [contains_nil (by simp)] at h; cases h
  | cons x rest ih =>
    intro h
    rcases contains_cons_elim h with hp | hin
    · rcases (prefixOf_iff _ _).1 hp with ⟨u, hu⟩
      injection hu with h1 _
      rw [h1]
      exact List.mem_cons_self _ _
    · exact List.mem_cons_of_mem x (ih hin)

theorem contains_singleton_false {p : Str} {c : Char} (hp : p ≠ []) (hc : c ∉ p) :
    containsSub p [c] = false := by
  cases h : containsSub p [c] with
  | false => rfl
  | true =>
    rw [contains_single hp h] at hc
    exact absurd (List.mem_cons_self _ _) hc

theorem contains_nl_line_false {l : Str} (h : ('\n' : Char) ∉ l) :
    containsSub (str "\n") l = false := by
  cases hc : containsSub (str "\n") l with
  | false => rfl
  | true => exact absurd (contains_single_char hc) h

theorem joinNL_free {p : Str} (hp : p ≠ []) (hnl : ('\n' : Char) ∉ p) :
    ∀ ls : List Str, (∀ l ∈ ls, containsSub p l = false) →
      containsSub p (joinNL ls) = false
  | [], _ => contains_nil hp
  | [l], h => h l (List.mem_cons_self _ _)
  | l :: l2 :: rest, h => by
    have hone : containsSub p ['\n'] = false := contains_singleton_false hp hnl
    have hrest : containsSub p (joinNL (l2 :: rest)) = false :=
      joinNL_free hp hnl (l2 :: rest) (fun x hx => h x (List.mem_cons_of_mem l hx))
    have hin : containsSub p (('\n' : Char) :: joinNL (l2 :: rest)) = false := by
      have := nc_append (a := ['\n']) hone hrest ?_
      · simpa using this
      · intro j hj1 hj2 ⟨hsuf, _⟩
        exact hnl (singleton_suffix_mem hj1 hj2 hsuf)
    have : containsSub p (l ++ ('\n' :: joinNL (l2 :: rest))) = false := by
      refine nc_append (h l (List.mem_cons_self _ _)) hin ?_
      intro j hj1 hj2 ⟨_, hpre⟩
      rw [straddle_nl hnl hj2] at hpre
      cases hpre
    simpa [joinNL] using this

theorem blockNL_free {p : Str} (hp : p ≠ []) (hnl : ('\n' : Char) ∉ p)
    (ls : List Str) (h : ∀ l ∈ ls, containsSub p l = false) :
    containsSub p (renderBlockNL ls) = false := by
  have hone : containsSub p ['\n'] = false := contains_singleton_false hp hnl
  have h1 : containsSub p (joinNL ls ++ ['\n']) = false := by
    refine nc_append (joinNL_free hp hnl ls h) hone ?_
    intro j hj1 hj2 ⟨_, hpre⟩
    rw [show (['\n'] : Str) = '\n' :: [] from rfl, straddle_nl hnl hj2] at hpre
    cases hpre
  have h2 := nc_append (a := ['\n']) hone h1 ?_
  · simpa [renderBlockNL] using h2
  · intro j hj1 hj2 ⟨hsuf, _⟩
    exact hnl (singleton_suffix_mem hj1 hj2 hsuf)

/-! Concrete-boundary concatenation helpers. -/

theorem nc_append_concL {p c u : Str}
    (hc : containsSub p c = false) (hu : containsSub p u = false)
    (hsuf : ∀ j, j < p.length → 0 < j → (p.take j).isSuffixOf c = false) :
    containsSub p (c ++ u) = false := by
  refine nc_append hc hu ?_
  intro j hj1 hj2 ⟨hs, _⟩
  rw [hsuf j hj2 hj1] at hs
  cases hs

theorem nc_append_concR {p a c u : Str}
    (ha : containsSub p a = false) (hcu : containsSub p (c ++ u) = false)
    (hinc : ∀ j, j < p.length → 0 < j →
      (p.drop j).isPrefixOf c = false ∧ c.isPrefixOf (p.drop j) = false) :
    containsSub p (a ++ (c ++ u)) = false := by
  refine nc_append ha hcu ?_
  intro j hj1 hj2 ⟨_, hp⟩
  rw [straddle_conc (hinc j hj2 hj1).1 (hinc j hj2 hj1).2 u] at hp
  cases hp

theorem blockBetween_eval {st en A C rest : Str}
    (hst : st ≠ []) (hbfst : borderFree st) (hen : en ≠ []) (hbfen : borderFree en)
    (hA : containsSub st A = false)
    (hB : containsSub st (C ++ en ++ rest) = false)
    (hC : containsSub en C = false) :
    blockBetween st en (A ++ st ++ (C ++ en ++ rest)) = C := by
  rw [blockBetween, splitOnStr_append hst hbfst hA, splitOnStr_single hB]
  have hget : ([A, C ++ en ++ rest] : List Str).get? 1 = some (C ++ en ++ rest) := rfl
  rw [hget]
  rw [show (match some (C ++ en ++ rest) with
      | none => ([] : Str)
      | some t => (splitOnStr en t).headD []) =
      (splitOnStr en (C ++ en ++ rest)).headD [] from rfl]
  rw [splitOnStr_append hen hbfen hC, List.headD_cons]

theorem blockBetween_none {st en text : Str} (h : containsSub st text = false) :
    blockBetween st en text = [] := by
  rw [blockBetween, splitOnStr_single h]
  rfl

theorem splitJoin : ∀ {ls : List Str}, ls ≠ [] →
    (∀ l ∈ ls, ('\n' : Char) ∉ l) →
    splitOnStr (str "\n") (joinNL ls ++ ['\n']) = ls ++ [[]]
  | [], hne, _ => absurd rfl hne
  | [l], _, h => by
    have hl : containsSub (str "\n") l = false :=
      contains_nl_line_false (h l (List.mem_cons_self _ _))
    have hshape : joinNL [l] ++ ['\n'] = l ++ str "\n" ++ [] := by
      simp [joinNL, str]
    rw [hshape, splitOnStr_append (by decide) (by decide) hl,
      splitOnStr_single (by decide)]
    rfl
  | l :: l2 :: rest, _, h => by
    have hl : containsSub (str "\n") l = false :=
      contains_nl_line_false (h l (List.mem_cons_self _ _))
    have hshape : joinNL (l :: l2 :: rest) ++ ['\n'] =
        l ++ str "\n" ++ (joinNL (l2 :: rest) ++ ['\n']) := by
      simp [joinNL, str, List.append_assoc]
    rw [hshape, splitOnStr_append (by decide) (by decide) hl,
      splitJoin (by simp) (fun x hx => h x (List.mem_cons_of_mem l hx))]
    rfl

theorem splitBlockNL {ls : List Str} (hne : ls ≠ [])
    (h : ∀ l ∈ ls, ('\n' : Char) ∉ l) :
    splitOnStr (str "\n") (renderBlockNL ls) = [] :: (ls ++ [[]]) := by
  have hshape : renderBlockNL ls = [] ++ str "\n" ++ (joinNL ls ++ ['\n']) := by
    simp [renderBlockNL, str]
  rw [hshape, splitOnStr_append (by decide) (by decide) (by decide),
    splitJoin hne h]

/-- The block-extraction equalities for a rendered recipe text. -/
theorem renderRecipe_blocks {pre mid post : Str} {ls ms : List Str}
    (hpre : cleanFill pre) (hmid : cleanFill mid) (hpost : cleanFill post)
    (hls : ∀ l ∈ ls, cleanLine l) (hms : ∀ l ∈ ms, cleanLine l) :
    blockBetween (str "INGREDIENTS_START") (str "INGREDIENTS_END")
        (renderRecipe pre ls mid ms post) = renderBlockNL ls ∧
    blockBetween (str "INSTRUCTIONS_START") (str "INSTRUCTIONS_END")
        (renderRecipe pre ls mid ms post) = renderBlockNL ms := by
  have hlsIS : ∀ l ∈ ls, containsSub (str "INGREDIENTS_START") l = false :=
    fun l hl => ((hls l hl).2).1
  have hlsIE : ∀ l ∈ ls, containsSub (str "INGREDIENTS_END") l = false :=
    fun l hl => ((hls l hl).2).2.1
  have hlsNS : ∀ l ∈ ls, containsSub (str "INSTRUCTIONS_START") l = false :=
    fun l hl => ((hls l hl).2).2.2.1
  have hmsIS : ∀ l ∈ ms, containsSub (str "INGREDIENTS_START") l = false :=
    fun l hl => ((hms l hl).2).1
  have hmsNS : ∀ l ∈ ms, containsSub (str "INSTRUCTIONS_START") l = false :=
    fun l hl => ((hms l hl).2).2.2.1
  have hmsNE : ∀ l ∈ ms, containsSub (str "INSTRUCTIONS_END") l = false :=
    fun l hl => ((hms l hl).2).2.2.2
  constructor
  · -- ingredients block
    have t6 : containsSub (str "INGREDIENTS_START")
        (str "INSTRUCTIONS_END" ++ post) = false :=
      nc_append_concL (by decide) hpost.1 (by decide)
    have t5 : containsSub (str "INGREDIENTS_START")
        (renderBlockNL ms ++ (str "INSTRUCTIONS_END" ++ post)) = false :=
      nc_append_concR (blockNL_free (by decide) (by decide) ms hmsIS) t6 (by decide)
    have t4 : containsSub (str "INGREDIENTS_START")
        (str "INSTRUCTIONS_START" ++ (renderBlockNL ms ++ (str "INSTRUCTIONS_END" ++ post))) = false :=
      nc_append_concL (by decide) t5 (by decide)
    have t3 : containsSub (str "INGREDIENTS_START")
        (mid ++ (str "INSTRUCTIONS_START" ++ (renderBlockNL ms ++ (str "INSTRUCTIONS_END" ++ post)))) = false :=
      nc_append_concR hmid.1 t4 (by decide)
    have t2 : containsSub (str "INGREDIENTS_START")
        (str "INGREDIENTS_END" ++ (mid ++ (str "INSTRUCTIONS_START" ++
          (renderBlockNL ms ++ (str "INSTRUCTIONS_END" ++ post))))) = false :=
      nc_append_concL (by decide) t3 (by decide)
    have t1 : containsSub (str "INGREDIENTS_START")
        (renderBlockNL ls ++ (str "INGREDIENTS_END" ++ (mid ++ (str "INSTRUCTIONS_START" ++
          (renderBlockNL ms ++ (str "INSTRUCTIONS_END" ++ post)))))) = false :=
      nc_append_concR (blockNL_free (by decide) (by decide) ls hlsIS) t2 (by decide)
    have hshape : renderRecipe pre ls mid ms post =
        pre ++ str "INGREDIENTS_START" ++ (renderBlockNL ls ++ str "INGREDIENTS_END" ++
          (mid ++ (str "INSTRUCTIONS_START" ++ (renderBlockNL ms ++
            (str "INSTRUCTIONS_END" ++ post))))) := by
      simp [renderRecipe, List.append_assoc]
    rw [hshape]
    refine blockBetween_eval (by decide) (by decide) (by decide) (by decide)
      hpre.1 ?_ (blockNL_free (by decide) (by decide) ls hlsIE)
    rw [List.append_assoc]
    exact t1
  · -- instructions block
    have s4 : containsSub (str "INSTRUCTIONS_START")
        (str "INGREDIENTS_END" ++ mid) = false :=
      nc_append_concL (by decide) hmid.2 (by decide)
    have s3 : containsSub (str "INSTRUCTIONS_START")
        (renderBlockNL ls ++ (str "INGREDIENTS_END" ++ mid)) = false :=
      nc_append_concR (blockNL_free (by decide) (by decide) ls hlsNS) s4 (by decide)
    have s2 : containsSub (str "INSTRUCTIONS_START")
        (str "INGREDIENTS_START" ++ (renderBlockNL ls ++ (str "INGREDIENTS_END" ++ mid))) = false :=
      nc_append_concL (by decide) s3 (by decide)
    have s1 : containsSub (str "INSTRUCTIONS_START")
        (pre ++ (str "INGREDIENTS_START" ++ (renderBlockNL ls ++
          (str "INGREDIENTS_END" ++ mid)))) = false :=
      nc_append_concR hpre.2 s2 (by decide)
    have sB : containsSub (str "INSTRUCTIONS_START")
        (renderBlockNL ms ++ (str "INSTRUCTIONS_END" ++ post)) = false := by
      refine nc_append_concR (blockNL_free (by decide) (by decide) ms hmsNS) ?_ (by decide)
      exact nc_append_concL (by decide) hpost.2 (by decide)
    have hshape : renderRecipe pre ls mid ms post =
        (pre ++ (str "INGREDIENTS_START" ++ (renderBlockNL ls ++
          (str "INGREDIENTS_END" ++ mid)))) ++ str "INSTRUCTIONS_START" ++
          (renderBlockNL ms ++ str "INSTRUCTIONS_END" ++ post) := by
      simp [renderRecipe, List.append_assoc]
    rw [hshape]
    refine blockBetween_eval (by decide) (by decide) (by decide) (by decide)
      s1 ?_ (blockNL_free (by decide) (by decide) ms hmsNE)
    rw [List.append_assoc]
    exact sB

/-- Line-level evaluation of the recipe parser on a rendered recipe
text: each block is split into its lines and cleaned per line. -/
theorem parseRecipe_render (dish pre mid post : Str) (ls ms : List Str)
    (sources : List GroundingSource)
    (hpre : cleanFill pre) (hmid : cleanFill mid) (hpost : cleanFill post)
    (hls : ∀ l ∈ ls, cleanLine l) (hms : ∀ l ∈ ms, cleanLine l)
    (hlsne : ls ≠ []) (hmsne : ms ≠ []) :
    (parseRecipe dish (renderRecipe pre ls mid ms post) sources).ingredients =
      (ls.map cleanIngredientLine).filter (fun line => decide (0 < line.length)) ∧
    (parseRecipe dish (renderRecipe pre ls mid ms post) sources).instructions =
      (ms.map cleanInstructionLine).filter (fun line => decide (0 < line.length)) := by
  obtain ⟨hbing, hbins⟩ := renderRecipe_blocks hpre hmid hpost hls hms
  have hsing : splitOnStr (str "\n") (renderBlockNL ls) = [] :: (ls ++ [[]]) :=
    splitBlockNL hlsne (fun l hl => (hls l hl).1)
  have hsins : splitOnStr (str "\n") (renderBlockNL ms) = [] :: (ms ++ [[]]) :=
    splitBlockNL hmsne (fun l hl => (hms l hl).1)
  have hn1 : cleanIngredientLine [] = ([] : Str) := rfl
  have hn2 : cleanInstructionLine [] = ([] : Str) := rfl
  constructor
  · simp only [parseRecipe, hbing, hsing, List.map_cons, List.map_append,
      List.map_nil, hn1, List.filter_cons, List.filter_append, List.filter_nil]
    simp
  · simp only [parseRecipe, hbins, hsins, List.map_cons, List.map_append,
      List.map_nil, hn2, List.filter_cons, List.filter_append, List.filter_nil]
    simp

/-- C9 counterexample: the ingredient line `1. Pepper` keeps its
ordinal and the instruction line `- Stir` keeps its dash — the parser
does not strip all three marker kinds from every line of both
blocks. -/
theorem claim_C9_counterexample :
    (parseRecipe (str "dish") c9ExampleText []).ingredients =
        [str "Tomato", str "1. Pepper"] ∧
      (parseRecipe (str "dish") c9ExampleText []).instructions =
        [str "Chop onions", str "- Stir"] ∧
      (parseRecipe (str "dish") c9ExampleText []).ingredients ≠
        [str "Tomato", str "Pepper"] ∧
      (parseRecipe (str "dish") c9ExampleText []).instructions ≠
        [str "Chop onions", str "Stir"] := by
  refine ⟨by decide, by decide, by decide, by decide⟩

/-- C9 (amended): every line of the ingredients block is trimmed and
stripped of a leading `-` or `*` marker (ordinals are kept), every line
of the instructions block is trimmed and stripped of a leading ordinal
(`-`/`*` are kept), blank lines are dropped; in particular `- Tomato`
parses to `Tomato` as an ingredient and `1. Chop onions` parses to
`Chop onions` as an instruction. -/
theorem claim_C9_amended (dish pre mid post : Str) (ls ms : List Str)
    (sources : List GroundingSource)
    (hpre : cleanFill pre) (hmid : cleanFill mid) (hpost : cleanFill post)
    (hls : ∀ l ∈ ls, cleanLine l) (hms : ∀ l ∈ ms, cleanLine l)
    (hlsne : ls ≠ []) (hmsne : ms ≠ []) :
    (parseRecipe dish (renderRecipe pre ls mid ms post) sources).ingredients =
        (ls.map cleanIngredientLine).filter (fun line => decide (0 < line.length)) ∧
      (parseRecipe dish (renderRecipe pre ls mid ms post) sources).instructions =
        (ms.map cleanInstructionLine).filter (fun line => decide (0 < line.length)) ∧
      cleanIngredientLine (str "- Tomato") = str "Tomato" ∧
      cleanInstructionLine (str "1. Chop onions") = str "Chop onions" := by
  obtain ⟨h1, h2⟩ :=
    parseRecipe_render dish pre mid post ls ms sources hpre hmid hpost hls hms hlsne hmsne
  exact ⟨h1, h2, by decide, by decide⟩

/-- C9 witness: the amended statement applied to a concrete recipe
response. -/
theorem claim_C9_witness :
    (parseRecipe (str "Soup") (renderRecipe (str "PREP_TIME: 5")
        [str "- Tomato"] (str " ") [str "1. Chop onions"] (str "")) []).ingredients =
      ([str "- Tomato"].map cleanIngredientLine).filter
        (fun line => decide (0 < line.length)) ∧
    (parseRecipe (str "Soup") (renderRecipe (str "PREP_TIME: 5")
        [str "- Tomato"] (str " ") [str "1. Chop onions"] (str "")) []).instructions =
      ([str "1. Chop onions"].map cleanInstructionLine).filter
        (fun line => decide (0 < line.length)) ∧
    cleanIngredientLine (str "- Tomato") = str "Tomato" ∧
    cleanInstructionLine (str "1. Chop onions") = str "Chop onions" :=
  claim_C9_amended (str "Soup") (str "PREP_TIME: 5") (str " ") (str "")
    [str "- Tomato"] [str "1. Chop onions"] []
    (by decide) (by decide) (by decide) (by decide) (by decide) (by decide) (by decide)

/-- C8: recipe parsing never fails the call for missing content —
missing `PREP_TIME:` (resp. `SERVINGS:`) defaults to `Varies`, and with
both delimited blocks missing the ingredient and instruction lists are
empty; `parseRecipe` is total, so no error is raised. -/
theorem claim_C8_defaults (dish text : Str) (sources : List GroundingSource) :
    (containsSub (str "PREP_TIME:") text = false →
      (parseRecipe dish text sources).prepTime = str "Varies") ∧
    (containsSub (str "SERVINGS:") text = false →
      (parseRecipe dish text sources).servings = str "Varies") ∧
    (containsSub (str "INGREDIENTS_START") text = false →
      containsSub (str "INSTRUCTIONS_START") text = false →
      (parseRecipe dish text sources).ingredients = [] ∧
        (parseRecipe dish text sources).instructions = []) := by
  refine ⟨?_, ?_, ?_⟩
  · intro h
    simp only [parseRecipe, matchKV_none h, Option.getD_none]
    decide
  · intro h
    simp only [parseRecipe, matchKV_none h, Option.getD_none]
    decide
  · intro h3 h4
    constructor
    · simp only [parseRecipe, blockBetween_none h3]
      decide
    · simp only [parseRecipe, blockBetween_none h4]
      decide

/-- C8 witness: a response with none of the markers present. -/
theorem claim_C8_witness :
    (parseRecipe (str "Soup") (str "hello there") []).prepTime = str "Varies" ∧
    (parseRecipe (str "Soup") (str "hello there") []).servings = str "Varies" ∧
    (parseRecipe (str "Soup") (str "hello there") []).ingredients = [] ∧
    (parseRecipe (str "Soup") (str "hello there") []).instructions = [] := by
  have h := claim_C8_defaults (str "Soup") (str "hello there") []
  exact ⟨h.1 (by decide), h.2.1 (by decide), (h.2.2 (by decide) (by decide)).1,
    (h.2.2 (by decide) (by decide)).2⟩

/-! ## Deduplication semantics (SourceList) -/

theorem updVal_cons (s : GroundingSource) (rest : List GroundingSource) (k : Str)
    (v : GroundingSource) :
    updVal (s :: rest) k v = if s.uri = k then updVal rest k s else updVal rest k v := by
  rw [updVal, List.reverse_cons, List.find?_append]
  by_cases hk : s.uri = k
  · rw [if_pos hk]
    cases hf : rest.reverse.find? (fun t => decide (t.uri = k)) with
    | none => simp [updVal, hf, List.find?, hk]
    | some x => simp [updVal, hf]
  · rw [if_neg hk]
    cases hf : rest.reverse.find? (fun t => decide (t.uri = k)) with
    | none => simp [updVal, hf, List.find?, hk]
    | some x => simp [updVal, hf]

theorem lastEntryFor_cons (s : GroundingSource) (rest : List GroundingSource) (u : Str) :
    lastEntryFor (s :: rest) u =
      if s.uri = u then some (updVal rest u s) else lastEntryFor rest u := by
  rw [lastEntryFor, List.reverse_cons, List.find?_append]
  by_cases hu : s.uri = u
  · rw [if_pos hu]
    cases hf : rest.reverse.find? (fun t => decide (t.uri = u)) with
    | none => simp [updVal, hf, List.find?, hu]
    | some x => simp [updVal, hf]
  · rw [if_neg hu]
    cases hf : rest.reverse.find? (fun t => decide (t.uri = u)) with
    | none => simp [lastEntryFor, hf, List.find?, hu]
    | some x => simp [lastEntryFor, hf]

theorem distinctUrisAux_congr : ∀ (l : List GroundingSource) (s1 s2 : List Str),
    (∀ u, u ∈ s1 ↔ u ∈ s2) → distinctUrisAux s1 l = distinctUrisAux s2 l
  | [], _, _, _ => rfl
  | s :: rest, s1, s2, h => by
    by_cases hm : s.uri ∈ s1
    · rw [distinctUrisAux, distinctUrisAux, if_pos hm, if_pos ((h s.uri).1 hm)]
      exact distinctUrisAux_congr rest s1 s2 h
    · rw [distinctUrisAux, distinctUrisAux, if_neg hm,
        if_neg (fun hc => hm ((h s.uri).2 hc))]
      refine congrArg (s.uri :: ·) (distinctUrisAux_congr rest _ _ ?_)
      intro u
      simp only [List.mem_cons]
      exact or_congr Iff.rfl (h u)

theorem distinct_not_mem : ∀ (l : List GroundingSource) (seen : List Str) (u : Str),
    u ∈ distinctUrisAux seen l → u ∉ seen
  | [], _, _, h => by cases h
  | s :: rest, seen, u, h => by
    rw [distinctUrisAux] at h
    by_cases hm : s.uri ∈ seen
    · rw [if_pos hm] at h
      exact distinct_not_mem rest seen u h
    · rw [if_neg hm] at h
      rcases List.mem_cons.1 h with rfl | h2
      · exact hm
      · intro hc
        exact distinct_not_mem rest _ u h2 (List.mem_cons_of_mem _ hc)

theorem dedupe_fold (l : List GroundingSource) :
    ∀ m : List (Str × GroundingSource),
    (l.foldl (fun m s => mapSet m s.uri s) m).map Prod.snd =
      m.map (fun e => updVal l e.1 e.2) ++
        (distinctUrisAux (m.map Prod.fst) l).filterMap (lastEntryFor l) := by
  induction l with
  | nil =>
    intro m
    simp [distinctUrisAux, updVal, lastEntryFor]
  | cons s rest ih =>
    intro m
    rw [List.foldl_cons, ih (mapSet m s.uri s)]
    by_cases hmem : s.uri ∈ m.map Prod.fst
    · -- the key is present: in-place value update
      have hms : mapSet m s.uri s = m.map (fun e => if e.1 = s.uri then (s.uri, s) else e) := by
        rw [mapSet, if_pos]
        simp only [List.any_eq_true, decide_eq_true_eq]
        rcases List.mem_map.1 hmem with ⟨e, he, hfst⟩
        exact ⟨e, he, hfst⟩
      have hkeys : (mapSet m s.uri s).map Prod.fst = m.map Prod.fst := by
        rw [hms, List.map_map]
        refine List.map_congr_left ?_
        intro e _
        simp only [Function.comp]
        by_cases he : e.1 = s.uri
        · rw [if_pos he]
          exact he.symm
        · rw [if_neg he]
      have hvals : (mapSet m s.uri s).map (fun e => updVal rest e.1 e.2) =
          m.map (fun e => updVal (s :: rest) e.1 e.2) := by
        rw [hms, List.map_map]
        refine List.map_congr_left ?_
        intro e _
        simp only [Function.comp]
        by_cases he : e.1 = s.uri
        · rw [if_pos he, updVal_cons, if_pos he.symm, he]
        · rw [if_neg he, updVal_cons, if_neg (fun hc => he hc.symm)]
      have hdst : distinctUrisAux (m.map Prod.fst) (s :: rest) =
          distinctUrisAux (m.map Prod.fst) rest := by
        rw [distinctUrisAux, if_pos hmem]
      have hfm : (distinctUrisAux (m.map Prod.fst) rest).filterMap (lastEntryFor rest) =
          (distinctUrisAux (m.map Prod.fst) rest).filterMap (lastEntryFor (s :: rest)) := by
        refine List.filterMap_congr ?_
        intro u hu
        have hne : s.uri ≠ u := by
          intro hc
          exact distinct_not_mem rest _ u hu (hc ▸ hmem)
        rw [lastEntryFor_cons, if_neg hne]
      rw [hkeys, hvals, hdst, hfm]
    · -- new key: appended at the end
      have hnone : m.any (fun e => decide (e.1 = s.uri)) = false := by
        rw [List.any_eq_false]
        intro e he
        simp only [decide_eq_true_eq]
        intro hc
        exact hmem (List.mem_map.2 ⟨e, he, hc⟩)
      have hms : mapSet m s.uri s = m ++ [(s.uri, s)] := by
        rw [mapSet, if_neg (by simp [hnone])]
      have hvals : m.map (fun e => updVal (s :: rest) e.1 e.2) =
          m.map (fun e => updVal rest e.1 e.2) := by
        refine List.map_congr_left ?_
        intro e he
        rw [updVal_cons, if_neg]
        intro hc
        exact hmem (by rw [hc]; exact List.mem_map.2 ⟨e, he, rfl⟩)
      have hdst : distinctUrisAux (m.map Prod.fst) (s :: rest) =
          s.uri :: distinctUrisAux (s.uri :: m.map Prod.fst) rest := by
        rw [distinctUrisAux, if_neg hmem]
      have hhead : lastEntryFor (s :: rest) s.uri = some (updVal rest s.uri s) := by
        rw [lastEntryFor_cons, if_pos rfl]
      have hD : distinctUrisAux (s.uri :: m.map Prod.fst) rest =
          distinctUrisAux (m.map Prod.fst ++ [s.uri]) rest := by
        refine distinctUrisAux_congr rest _ _ ?_
        intro u
        constructor
        · intro h
          rcases List.mem_cons.1 h with h1 | h2
          · exact List.mem_append.2 (Or.inr (by rw [h1]; exact List.mem_cons_self _ _))
          · exact List.mem_append.2 (Or.inl h2)
        · intro h
          rcases List.mem_append.1 h with h1 | h2
          · exact List.mem_cons_of_mem _ h1
          · rw [List.mem_singleton.1 h2]
            exact List.mem_cons_self _ _
      have hfm : (distinctUrisAux (s.uri :: m.map Prod.fst) rest).filterMap
            (lastEntryFor (s :: rest)) =
          (distinctUrisAux (s.uri :: m.map Prod.fst) rest).filterMap (lastEntryFor rest) := by
        refine List.filterMap_congr ?_
        intro u hu
        have hne : s.uri ≠ u := by
          intro hc
          exact distinct_not_mem rest _ u hu (hc ▸ List.mem_cons_self _ _)
        rw [lastEntryFor_cons, if_neg hne]
      rw [hms, List.map_append, List.map_append, hvals, hdst, List.filterMap_cons,
        hhead, hfm, hD]
      simp [List.append_assoc]

/-- C2 (amended): the deduplicated source list keeps one entry per
distinct URI, ordered by the URI's first occurrence, and the entry kept
is the last-occurring one for that URI (JavaScript `Map` semantics:
`set` on an existing key updates the value in place); on the spec
example, the result is `{B,x}` then `{C,y}`. -/
theorem claim_C2_amended :
    (∀ sources : List GroundingSource,
      dedupeSources sources = (distinctUris sources).filterMap (lastEntryFor sources)) ∧
    dedupeSources [⟨str "A", str "x"⟩, ⟨str "B", str "x"⟩, ⟨str "C", str "y"⟩] =
      [⟨str "B", str "x"⟩, ⟨str "C", str "y"⟩] := by
  constructor
  · intro sources
    rw [dedupeSources, dedupe_fold sources []]
    simp [distinctUris, distinctUrisAux]
  · decide

/-- C2 counterexample: on grounding entries `[{A,x},{B,x},{C,y}]` the
deduplicated list is `[{B,x},{C,y}]` — for URI `x` the first-occurring
entry `{A,x}` is NOT the one kept. -/
theorem claim_C2_counterexample :
    dedupeSources [⟨str "A", str "x"⟩, ⟨str "B", str "x"⟩, ⟨str "C", str "y"⟩] =
        [⟨str "B", str "x"⟩, ⟨str "C", str "y"⟩] ∧
      dedupeSources [⟨str "A", str "x"⟩, ⟨str "B", str "x"⟩, ⟨str "C", str "y"⟩] ≠
        [⟨str "A", str "x"⟩, ⟨str "C", str "y"⟩] := by
  exact ⟨by decide, by decide⟩

/-- C1 counterexample: a text with exactly 3 well-formed blocks parses
to identifiers `rec-1`, `rec-2`, `rec-3` — not `rec-0`, `rec-1`,
`rec-2` — because index 0 of the marker split is the text before the
first block. -/
theorem claim_C1_counterexample :
    (parseRecommendations c1ExampleText).map (fun r => r.id) =
        [str "rec-1", str "rec-2", str "rec-3"] ∧
      (parseRecommendations c1ExampleText).map (fun r => r.id) ≠
        [str "rec-0", str "rec-1", str "rec-2"] := by
  exact ⟨by decide, by decide⟩

/-! ## Mode resolution claims -/

/-- C3 counterexample: the unrecognized mode string `bogus` does not
fail — `getModelConfig` silently hands back the very same configuration
as `normal` mode. -/
theorem claim_C3_counterexample :
    getModelConfig (str "bogus") none = getModelConfig (str "normal") none ∧
      (getModelConfig (str "bogus") none).model = str "gemini-2.5-flash" ∧
      (getModelConfig (str "bogus") none).tools = [Tool.googleSearch] := by
  exact ⟨by decide, by decide, by decide⟩

/-- C3 (amended): every recognized mode maps to its defined
configuration, and any unrecognized mode value silently falls through
to the default (normal) configuration — there is no failure path in the
mode resolver. -/
theorem claim_C3_amended (loc : Option LatLng) :
    getModelConfig (str "normal") loc =
        ⟨str "gemini-2.5-flash", [Tool.googleSearch], none, none⟩ ∧
      getModelConfig (str "fast") loc =
        ⟨str "gemini-2.5-flash-lite", [Tool.googleSearch], none, none⟩ ∧
      getModelConfig (str "thinking") loc =
        ⟨str "gemini-3-pro-preview", [Tool.googleSearch], some ⟨32768⟩, none⟩ ∧
      getModelConfig (str "restaurants") loc =
        ⟨str "gemini-2.5-flash", [Tool.googleMaps], none, loc⟩ ∧
      getModelConfig (str "search_agent") loc =
        ⟨str "gemini-2.5-flash", [Tool.googleSearch], none, none⟩ ∧
      (∀ mode : Str, mode ≠ str "fast" → mode ≠ str "thinking" →
        mode ≠ str "restaurants" → mode ≠ str "search_agent" →
        getModelConfig mode loc =
          ⟨str "gemini-2.5-flash", [Tool.googleSearch], none, none⟩) := by
  refine ⟨rfl, rfl, rfl, rfl, rfl, ?_⟩
  intro mode h1 h2 h3 h4
  rw [getModelConfig, if_neg h1, if_neg h2, if_neg h3, if_neg h4]

/-- C3 witness: the amended statement applied at the unrecognized mode
`bogus`. -/
theorem claim_C3_witness :
    getModelConfig (str "bogus") none =
      ⟨str "gemini-2.5-flash", [Tool.googleSearch], none, none⟩ :=
  (claim_C3_amended none).2.2.2.2.2 (str "bogus")
    (by decide) (by decide) (by decide) (by decide)

/-! ## Recipe-mode coercion (C7) -/

/-- C7: `getDishRecipe` coerces the modes `video`, `image`,
`restaurants` and `search_agent` to `normal` before building its
configuration, so those four use exactly the normal-mode configuration
(model `gemini-2.5-flash`), while `normal`, `fast` and `thinking` pass
through unchanged. -/
theorem claim_C7_mode_coercion (loc : Option LatLng) :
    effectiveMode (str "video") = str "normal" ∧
      effectiveMode (str "image") = str "normal" ∧
      effectiveMode (str "restaurants") = str "normal" ∧
      effectiveMode (str "search_agent") = str "normal" ∧
      effectiveMode (str "normal") = str "normal" ∧
      effectiveMode (str "fast") = str "fast" ∧
      effectiveMode (str "thinking") = str "thinking" ∧
      getDishRecipeConfig (str "video") loc = getModelConfig (str "normal") loc ∧
      getDishRecipeConfig (str "image") loc = getModelConfig (str "normal") loc ∧
      getDishRecipeConfig (str "restaurants") loc = getModelConfig (str "normal") loc ∧
      getDishRecipeConfig (str "search_agent") loc = getModelConfig (str "normal") loc ∧
      (getDishRecipeConfig (str "video") loc).model = str "gemini-2.5-flash" ∧
      (getDishRecipeConfig (str "image") loc).model = str "gemini-2.5-flash" ∧
      (getDishRecipeConfig (str "restaurants") loc).model = str "gemini-2.5-flash" ∧
      (getDishRecipeConfig (str "search_agent") loc).model = str "gemini-2.5-flash" :=
  ⟨rfl, rfl, rfl, rfl, rfl, rfl, rfl, rfl, rfl, rfl, rfl, rfl, rfl, rfl, rfl⟩

/-! ## The video-attachment rejection (C5) -/

/-- C5: a video-mode search with any attachment ends in the
attachment-rejection error state before any network call — the call
trace is empty, so neither the Veo job submission nor any poll ever
happens, whatever the video backend would have answered. -/
theorem claim_C5_video_attachment (a : Attachment) (apiKey : Str) (videoInit : VideoOp)
    (videoPolls : List VideoOp) (imageOutcome : Except Unit Str)
    (recsOutcome : Except Unit RecResult) :
    handleSearch (str "video") (some a) apiKey videoInit videoPolls imageOutcome
        recsOutcome =
      (some { isLoading := false, results := [], error := some videoAttachmentMsg,
              rawText := none, allSources := some [], videoUrl := none,
              imageUrl := none },
       []) := rfl

/-! ## The session-state invariant (C4) -/

/-- C4: every terminal state `handleSearch` can produce — any mode, any
attachment, any service behaviour — satisfies the session invariant: at
most one of {non-empty results, video, image, error} is populated, the
raw-text fallback only shows with empty results, no media, loading over
and raw text present, and an error comes with every success channel
cleared. -/
theorem claim_C4_invariant (mode : Str) (attachment : Option Attachment) (apiKey : Str)
    (videoInit : VideoOp) (videoPolls : List VideoOp)
    (imageOutcome : Except Unit Str) (recsOutcome : Except Unit RecResult) :
    sessionInvariantOpt (handleSearch mode attachment apiKey videoInit videoPolls
      imageOutcome recsOutcome).1 = true := by
  unfold handleSearch
  by_cases hv : mode = str "video"
  · rw [if_pos hv]
    by_cases ha : attachment.isSome
    · rw [if_pos ha]
      rfl
    · rw [if_neg ha]
      rcases hrun : generateFoodVideoRun apiKey videoInit videoPolls with ⟨res, calls⟩
      rcases res with _ | e
      · rfl
      · rcases e with e | url <;> rfl
  · rw [if_neg hv]
    by_cases hi : mode = str "image"
    · rw [if_pos hi]
      by_cases ha : attachment.isSome
      · rw [if_pos ha]
        rfl
      · rw [if_neg ha]
        rcases imageOutcome with e | url <;> rfl
    · rw [if_neg hi]
      rcases recsOutcome with e | data
      · rfl
      · rcases data with ⟨recs, raw, srcs⟩
        cases recs <;> cases raw <;> rfl

/-! ## Video polling (C6) -/

theorem pollVideo_done {op : VideoOp} (h : op.done = true) (polls : List VideoOp) :
    pollVideo op polls = some (op, []) := by
  cases polls with
  | nil => rw [pollVideo, if_pos (by simp [h])]
  | cons p rest => rw [pollVideo, if_pos (by simp [h])]

theorem pollVideo_step {op : VideoOp} (h : op.done = false) (p : VideoOp)
    (rest : List VideoOp) :
    pollVideo op (p :: rest) = (pollVideo p rest).map
      (fun r => (r.1, VideoEvent.wait 5000 :: VideoEvent.poll :: r.2)) := by
  rw [pollVideo, if_neg (by simp [h])]
  cases pollVideo p rest with
  | none => rfl
  | some r =>
    rcases r with ⟨f, tr⟩
    rfl

/-- C6: (a) a job reporting not-done, then not-done, then done with a
URI present (truthy, so non-empty) makes `generateFoodVideo` return the
URI with the trailing credential suffix after exactly two poll
iterations, each preceded by a fixed 5-second wait; (b) whenever the
loop terminates, the final operation reports done — completion is the
only exit; (c) for every `n`, a schedule of `n` not-done answers before
the done one is polled `n + 1` times: no client-side cap or timeout
exists. -/
theorem claim_C6_polling :
    (∀ (apiKey uri : Str) (o1 p1 : VideoOp) (rest : List VideoOp),
      uri ≠ [] → o1.done = false → p1.done = false →
      pollVideo o1 (p1 :: ⟨true, some uri⟩ :: rest) =
        some (⟨true, some uri⟩, [VideoEvent.wait 5000, VideoEvent.poll,
          VideoEvent.wait 5000, VideoEvent.poll]) ∧
      generateFoodVideo apiKey o1 (p1 :: ⟨true, some uri⟩ :: rest) =
        some (Except.ok (uri ++ str "&key=" ++ apiKey))) ∧
    (∀ (op : VideoOp) (polls : List VideoOp) (f : VideoOp) (tr : List VideoEvent),
      pollVideo op polls = some (f, tr) → f.done = true) ∧
    (∀ (n : Nat) (uri : Str) (o : VideoOp), o.done = false →
      (pollVideo o (List.replicate n ⟨false, none⟩ ++ [⟨true, some uri⟩])).map
          (fun r => (r.2.filter (fun e => decide (e = VideoEvent.poll))).length) =
        some (n + 1)) := by
  refine ⟨?_, ?_, ?_⟩
  · intro apiKey uri o1 p1 rest hu h1 h2
    have h3 : pollVideo (⟨true, some uri⟩ : VideoOp) rest =
        some (⟨true, some uri⟩, []) := pollVideo_done rfl rest
    have h2x : pollVideo p1 (⟨true, some uri⟩ :: rest) =
        some (⟨true, some uri⟩, [VideoEvent.wait 5000, VideoEvent.poll]) := by
      rw [pollVideo_step h2, h3]
      rfl
    have h1x : pollVideo o1 (p1 :: ⟨true, some uri⟩ :: rest) =
        some (⟨true, some uri⟩, [VideoEvent.wait 5000, VideoEvent.poll,
          VideoEvent.wait 5000, VideoEvent.poll]) := by
      rw [pollVideo_step h1, h2x]
      rfl
    refine ⟨h1x, ?_⟩
    rw [generateFoodVideo, h1x]
    simp only [Option.map_some']
    rw [if_neg (by simp [List.isEmpty_iff, hu])]
  · intro op polls
    induction polls generalizing op with
    | nil =>
      intro f tr h
      cases hdone : op.done with
      | true =>
        rw [pollVideo_done hdone] at h
        injection h with h2
        have hf : op = f := congrArg Prod.fst h2
        rw [← hf]
        exact hdone
      | false =>
        rw [pollVideo, if_neg (by simp [hdone])] at h
        cases h
    | cons p rest ih =>
      intro f tr h
      cases hdone : op.done with
      | true =>
        rw [pollVideo_done hdone] at h
        injection h with h2
        have hf : op = f := congrArg Prod.fst h2
        rw [← hf]
        exact hdone
      | false =>
        rw [pollVideo_step hdone] at h
        cases hrec : pollVideo p rest with
        | none =>
          rw [hrec] at h
          simp at h
        | some r =>
          rw [hrec] at h
          simp only [Option.map_some'] at h
          injection h with h2
          have hf : r.1 = f := congrArg Prod.fst h2
          rw [← hf]
          exact ih p r.1 r.2 (by rw [hrec])
  · intro n
    induction n with
    | zero =>
      intro uri o ho
      rw [List.replicate_zero, List.nil_append, pollVideo_step ho,
        pollVideo_done rfl]
      rfl
    | succ n ih =>
      intro uri o ho
      rw [List.replicate_succ, List.cons_append, pollVideo_step ho]
      have hrec := ih uri ⟨false, none⟩ rfl
      cases hrem : pollVideo ⟨false, none⟩
          (List.replicate n ⟨false, none⟩ ++ [⟨true, some uri⟩]) with
      | none =>
        rw [hrem] at hrec
        simp at hrec
      | some r =>
        rw [hrem] at hrec
        simp only [Option.map_some'] at hrec ⊢
        injection hrec with hcount
        rw [show (List.filter (fun e => decide (e = VideoEvent.poll))
            (VideoEvent.wait 5000 :: VideoEvent.poll :: r.2)).length =
            (r.2.filter (fun e => decide (e = VideoEvent.poll))).length + 1 from by
          simp [List.filter_cons], hcount]

/-- C6 witness: the polling statement applied to a concrete two-poll
schedule. -/
theorem claim_C6_witness :
    pollVideo ⟨false, none⟩ [⟨false, none⟩, ⟨true, some (str "U")⟩] =
        some (⟨true, some (str "U")⟩, [VideoEvent.wait 5000, VideoEvent.poll,
          VideoEvent.wait 5000, VideoEvent.poll]) ∧
      generateFoodVideo (str "KEY") ⟨false, none⟩
          [⟨false, none⟩, ⟨true, some (str "U")⟩] =
        some (Except.ok (str "U&key=KEY")) := by
  have h := claim_C6_polling.1 (str "KEY") (str "U") ⟨false, none⟩ ⟨false, none⟩ []
    (by decide) rfl rfl
  refine ⟨h.1, ?_⟩
  rw [h.2]
  rfl

/-! ## Source extraction (C10) -/

/-- C10: extracted grounding sources never carry the `#` placeholder
URI; web and maps chunks without a (truthy, non-placeholder) URI are
silently dropped; a chunk with a usable URI but no title receives the
default title of its kind. -/
theorem claim_C10_sources :
    (∀ (chunks : List Chunk) (s : GroundingSource),
      s ∈ extractSources chunks → s.uri ≠ str "#") ∧
    (∀ (t : Option Str) (rest : List Chunk),
      extractSources ({ web := some ⟨t, none⟩, maps := none } :: rest) =
        extractSources rest) ∧
    (∀ (t : Option Str) (rest : List Chunk),
      extractSources ({ web := none, maps := some ⟨t, none⟩ } :: rest) =
        extractSources rest) ∧
    (∀ (u : Str) (rest : List Chunk), u ≠ [] → u ≠ str "#" →
      extractSources ({ web := some ⟨none, some u⟩, maps := none } :: rest) =
        ⟨str "Web Source", u⟩ :: extractSources rest) ∧
    (∀ (u : Str) (rest : List Chunk), u ≠ [] → u ≠ str "#" →
      extractSources ({ web := none, maps := some ⟨none, some u⟩ } :: rest) =
        ⟨str "Google Maps Location", u⟩ :: extractSources rest) := by
  refine ⟨?_, ?_, ?_, ?_, ?_⟩
  · intro chunks s hs
    have := (List.mem_filter.1 hs).2
    simpa using this
  · intro t rest
    rw [extractSources, extractSources, List.flatMap_cons, List.filter_append]
    simp [jsOrStr]
  · intro t rest
    rw [extractSources, extractSources, List.flatMap_cons, List.filter_append]
    simp [jsOrStr]
  · intro u rest hne hhash
    rw [extractSources, extractSources, List.flatMap_cons, List.filter_append]
    simp [jsOrStr, hne, hhash]
  · intro u rest hne hhash
    rw [extractSources, extractSources, List.flatMap_cons, List.filter_append]
    simp [jsOrStr, hne, hhash, List.isEmpty_iff]

/-- C10 witness: the parts of the statement with hypotheses applied to
concrete chunks. -/
theorem claim_C10_witness :
    extractSources [{ web := some ⟨none, some (str "u")⟩, maps := none }] =
        [⟨str "Web Source", str "u"⟩] ∧
      extractSources [{ web := none, maps := some ⟨none, some (str "v")⟩ }] =
        [⟨str "Google Maps Location", str "v"⟩] ∧
      (⟨str "Web Source", str "u"⟩ : GroundingSource).uri ≠ str "#" := by
  refine ⟨?_, ?_, ?_⟩
  · rw [claim_C10_sources.2.2.2.1 (str "u") [] (by decide) (by decide)]
    decide
  · rw [claim_C10_sources.2.2.2.2 (str "v") [] (by decide) (by decide)]
    decide
  · exact claim_C10_sources.1 [{ web := some ⟨none, some (str "u")⟩, maps := none }]
      ⟨str "Web Source", str "u"⟩
      (by rw [claim_C10_sources.2.2.2.1 (str "u") [] (by decide) (by decide)]; decide)

end GoogleFoods
